import Mathlib

/-!
# moogFilter: a shallow embedding of `MoogFilter` (source/moogFilter.cpp, source/moogFilter.hpp)

The plugin object is a record of its six private members.  Arrays of fixed size are
functions on `Fin`, each C++ assignment is one functional update, and each `for` loop is a
fold over its index range in source order.

The arithmetic of the `float` samples is a parameter.  The definitions are written over a
type `α` that carries only the symbols the source uses (`0`, `1`, `2`, `1000`, decimal
literals, `+`, `-`, `*`, `/`) and no law, and every operation of the source is one
operation of `α`, in the source's order.  Two kinds of instance are used:

* `F32`, IEEE 754 binary32 with round-to-nearest-even after every operation, subnormals,
  overflow to infinity, `x / 0` infinite, `0 / 0`, `0 * inf` and `inf - inf` NaN.  The two
  signed zeros are one value and the NaNs are one value.  The sample rate is taken as a
  binary32 value: `getSampleRate()` returns a `double`, and for a rate that binary32
  represents the quotient `fCutoffFreq / getSampleRate()` formed in `double` and narrowed
  to `float` is the binary32 quotient.  Each operation is rounded on its own (no fused
  multiply-add, no excess precision).
* fields (`ℚ` for evaluation, `ℝ` for limits): exact arithmetic.

A theorem stated for every `α` holds for binary32 and for exact arithmetic alike; its
hypotheses name the facts of arithmetic it uses at the values involved (such as
`c * 0 = 0`, which in binary32 says that `c` is finite).  A theorem stated for a field is
a statement of exact arithmetic.  Binary32 values are evaluated by kernel reduction.
-/

/-- Number of audio channels: `constexpr uint32_t kNumChannels = 2` (moogFilter.hpp:14). -/
abbrev kNumChannels : Nat := 2

/-- The private members of `class MoogFilter` (moogFilter.hpp:130-135). -/
structure MoogFilter (α : Type) where
  fCutoffFreq : α
  fResonance : α
  fDrive : α
  fOutputGain : α
  fDelay : Fin kNumChannels → Fin 4 → α
  fState : Fin kNumChannels → Fin 2 → α

namespace MoogFilter

/-- Enumerator `kCutoffFreq` of `enum Parameters` (moogFilter.hpp:24-30). -/
abbrev kCutoffFreq : Nat := 0
/-- Enumerator `kResonance` of `enum Parameters`. -/
abbrev kResonance : Nat := 1
/-- Enumerator `kDrive` of `enum Parameters`. -/
abbrev kDrive : Nat := 2
/-- Enumerator `kOutputGain` of `enum Parameters`. -/
abbrev kOutputGain : Nat := 3
/-- Enumerator `kNumParams` of `enum Parameters`. -/
abbrev kNumParams : Nat := 4

/-- An audio buffer set `float**`: channel index, then frame index. -/
abbrev Buffers (α : Type) : Type := Fin kNumChannels → Nat → α

/-- The assignment `a[i][j] = v` on a two-dimensional fixed-size array. -/
def write {α : Type} {m n : Nat} (a : Fin m → Fin n → α) (i : Fin m) (j : Fin n) (v : α) :
    Fin m → Fin n → α :=
  fun i2 j2 => if i2 = i ∧ j2 = j then v else a i2 j2

/-- The assignment `outputs[ch][i] = v` on a buffer set. -/
def writeBuf {α : Type} (b : Buffers α) (ch : Fin kNumChannels) (i : Nat) (v : α) : Buffers α :=
  fun ch2 i2 => if ch2 = ch ∧ i2 = i then v else b ch2 i2

/-- A counted loop `for (uint32_t i = 0; i < n; ++i) body`, as a state transformer. -/
def forLoop {σ : Type} (body : Nat → σ → σ) : Nat → σ → σ
  | 0, s => s
  | n + 1, s => body n (forLoop body n s)

section ParameterStore

variable {α : Type}

/-- `MoogFilter::getParameterValue` (moogFilter.cpp:91-103).  The `switch` has no
`default` and the function no trailing `return`, so for an index that matches no
case control flows off the end of a non-void function: the source returns no value
there, which is `none`. -/
def getParameterValue (p : MoogFilter α) (index : Nat) : Option α :=
  if index = kCutoffFreq then some p.fCutoffFreq
  else if index = kResonance then some p.fResonance
  else if index = kDrive then some p.fDrive
  else if index = kOutputGain then some p.fOutputGain
  else none

/-- `MoogFilter::setParameterValue` (moogFilter.cpp:111-129). -/
def setParameterValue (p : MoogFilter α) (index : Nat) (value : α) : MoogFilter α :=
  if index = kCutoffFreq then { p with fCutoffFreq := value }
  else if index = kResonance then { p with fResonance := value }
  else if index = kDrive then { p with fDrive := value }
  else if index = kOutputGain then { p with fOutputGain := value }
  else p

/-- `MoogFilter::activate` (moogFilter.cpp:138-141): the body is empty. -/
def activate (p : MoogFilter α) : MoogFilter α := p

/-- `MoogFilter::deactivate` (moogFilter.cpp:143-146): the body is empty. -/
def deactivate (p : MoogFilter α) : MoogFilter α := p

/-- `MoogFilter::sampleRateChanged` (moogFilter.cpp:202-205): the body only discards
its argument, `(void)newSampleRate`. -/
def sampleRateChanged (p : MoogFilter α) (_newSampleRate : α) : MoogFilter α := p

/-- Modelled from the spec: the host framework's `ParameterRanges` record (declared in
DistrhoPlugin.hpp, which is not among the sources), holding the default, minimum and
maximum of a parameter; `defaultValue` is the member `def`. -/
structure ParameterRanges (α : Type) where
  defaultValue : α
  min : α
  max : α

/-- Modelled from the spec: the host framework's `Parameter` record (declared in
DistrhoPlugin.hpp, which is not among the sources), restricted to the members that
`initParameter` writes. -/
structure Parameter (α : Type) where
  hints : Nat
  name : String
  symbol : String
  unit : String
  ranges : ParameterRanges α

end ParameterStore

section Embedding

variable {α : Type} [Zero α] [One α] [OfNat α 2] [OfNat α 1000] [OfScientific α]
  [Add α] [Sub α] [Mul α] [Div α]

/-- The constructor `MoogFilter::MoogFilter()` (moogFilter.cpp:9-28).  `u` is the object
before the body runs, whose members hold indeterminate values.  The four parameters
are assigned, then for every channel `i` and every `j < 4` the body of the inner loop
assigns `fDelay[i][j]`, `fState[i][0]` and `fState[i][1]`. -/
def construct (u : MoogFilter α) : MoogFilter α :=
  let p := { u with fCutoffFreq := 1000 }
  let p := { p with fResonance := 0.1 }
  let p := { p with fDrive := 0 }
  let p := { p with fOutputGain := 1 }
  Fin.foldl kNumChannels (fun p i =>
    Fin.foldl 4 (fun p j =>
      let p := { p with fDelay := write p.fDelay i j 0 }
      let p := { p with fState := write p.fState i 0 0 }
      { p with fState := write p.fState i 1 0 }) p) p

/-- The body of the channel loop of `MoogFilter::run` (moogFilter.cpp:174-190), for
channel `ch` at frame `i`, with the frame's locals `fb g a0 a1 a2 b1 b2` and the driven
input `inp` (the local `in`) in scope.  The state is the object and the output
buffers. -/
def runChannel (fb g a0 a1 a2 b1 b2 inp : α) (i : Nat)
    (st : MoogFilter α × Buffers α) (ch : Fin kNumChannels) : MoogFilter α × Buffers α :=
  let p := st.1
  let out := g * (inp - fb * p.fDelay ch 3)
  let p := { p with fDelay := write p.fDelay ch 0 (p.fDelay ch 1) }
  let p := { p with fDelay := write p.fDelay ch 1 (p.fDelay ch 2) }
  let p := { p with fDelay := write p.fDelay ch 2 (p.fDelay ch 3) }
  let p := { p with fDelay := write p.fDelay ch 3 out }
  let y := a0 * (p.fDelay ch 0 + a1 * p.fDelay ch 1 + a2 * p.fDelay ch 2)
    - b1 * p.fState ch 0 - b2 * p.fState ch 1
  let p := { p with fState := write p.fState ch 1 (p.fState ch 0) }
  let p := { p with fState := write p.fState ch 0 y }
  (p, writeBuf st.2 ch i y)

/-- The per-frame coefficient locals `fb g a0 a1 a2 b1 b2` of `run`
(moogFilter.cpp:162-170), gathered in one record. -/
structure Coeffs (α : Type) where
  fb : α
  g : α
  a0 : α
  a1 : α
  a2 : α
  b1 : α
  b2 : α

/-- The initialisers of the locals `fb g a0 a1 a2 b1 b2` (moogFilter.cpp:162-170), in
source order, from the block locals `cutoff` (already divided by the sample rate),
`resonance` and `outputGain`. -/
def coeffs (cutoff resonance outputGain : α) : Coeffs α :=
  let fb := resonance + resonance / (1 - cutoff)
  let g := outputGain / (1 + fb)
  let a0 := 1 / (1 + cutoff * (1.61803398875 - cutoff))
  let a1 := 2 * a0
  let a2 := a0
  let b1 := 2 * (1 - cutoff) * a0
  let b2 := (1 - cutoff * (1.61803398875 - cutoff)) * a0
  { fb := fb, g := g, a0 := a0, a1 := a1, a2 := a2, b1 := b1, b2 := b2 }

/-- The body of the frame loop of `MoogFilter::run` (moogFilter.cpp:158-191), with the
block locals `cutoff resonance drive outputGain` in scope: the driven input is read
from `inputs[0]`, the coefficients are computed, and the channel loop runs over
`ch = 0 .. kNumChannels - 1`. -/
def runFrame (cutoff resonance drive outputGain : α) (inputs : Buffers α) (i : Nat)
    (st : MoogFilter α × Buffers α) : MoogFilter α × Buffers α :=
  let inp := inputs 0 i * drive
  let c := coeffs cutoff resonance outputGain
  Fin.foldl kNumChannels (runChannel c.fb c.g c.a0 c.a1 c.a2 c.b1 c.b2 inp i) st

/-- `MoogFilter::run` (moogFilter.cpp:151-193).  `sampleRate` is the value of
`getSampleRate()`; the result is the object and the output buffers after the call. -/
def run (p : MoogFilter α) (sampleRate : α) (inputs outputs : Buffers α) (nframes : Nat) :
    MoogFilter α × Buffers α :=
  let cutoff := p.fCutoffFreq / sampleRate
  let resonance := p.fResonance
  let drive := p.fDrive
  let outputGain := p.fOutputGain
  forLoop (runFrame cutoff resonance drive outputGain inputs) nframes (p, outputs)

/-- The coefficients a call of `run` computes in every frame, for object `p` when
`getSampleRate()` is `sampleRate`. -/
def blockCoeffs (p : MoogFilter α) (sampleRate : α) : Coeffs α :=
  coeffs (p.fCutoffFreq / sampleRate) p.fResonance p.fOutputGain

/-- The persistent state of one channel in the specification's data model (section 3):
a 4-slot delay history and a 2-slot feedback-state pair. -/
structure ChannelState (α : Type) where
  delay : Fin 4 → α
  state : Fin 2 → α

/-- The state of channel `ch` held by the object: `fDelay[ch]` and `fState[ch]`. -/
def channelOf (p : MoogFilter α) (ch : Fin kNumChannels) : ChannelState α :=
  { delay := p.fDelay ch, state := p.fState ch }

/-- The specification's single-channel recurrence (section 4.2, step 2), written from
the specification's words and not from `run`: one driven input sample `inp` and a
channel state give the updated channel state and one output sample. -/
def specStep (c : Coeffs α) (inp : α) (s : ChannelState α) : ChannelState α × α :=
  let out := c.g * (inp - c.fb * s.delay 3)
  let delay : Fin 4 → α := ![s.delay 1, s.delay 2, s.delay 3, out]
  let y := c.a0 * (delay 0 + c.a1 * delay 1 + c.a2 * delay 2)
    - c.b1 * s.state 0 - c.b2 * s.state 1
  ({ delay := delay, state := ![y, s.state 0] }, y)

/-- The specification's channel state after `n` frames of the single-channel recurrence
on the signal `x`, each sample scaled by `drive` (`in = x[i] * drive`). -/
def specState (c : Coeffs α) (drive : α) (x : Nat → α) (s : ChannelState α) :
    Nat → ChannelState α
  | 0 => s
  | n + 1 => (specStep c (x n * drive) (specState c drive x s n)).1

/-- The specification's output sample `n` of the single-channel recurrence on `x`. -/
def specOut (c : Coeffs α) (drive : α) (x : Nat → α) (s : ChannelState α) (n : Nat) : α :=
  (specStep c (x n * drive) (specState c drive x s n)).2

/-- The concatenation of two input blocks: the first `N` frames of `xs` followed by the
frames of `ys`. -/
def concatBlocks (N : Nat) (xs ys : Buffers α) : Buffers α :=
  fun ch i => if i < N then xs ch i else ys ch (i - N)

/-- All `nframes` frames of the channel-loop body of `run` for the single channel `ch`:
the frame loop with the channel fixed. -/
def runChannelFrames (c : Coeffs α) (drive : α) (inputs : Buffers α) (nframes : Nat)
    (st : MoogFilter α × Buffers α) (ch : Fin kNumChannels) : MoogFilter α × Buffers α :=
  forLoop (fun i st =>
    runChannel c.fb c.g c.a0 c.a1 c.a2 c.b1 c.b2 (inputs 0 i * drive) i st ch) nframes st

/-- Channel-major processing: the loops of `run` interchanged.  The channels are taken in
the order `order`, and for each channel all frames are processed before the next channel
is started, with the block coefficients and the driven input samples of `run`. -/
def runChannelMajor (order : List (Fin kNumChannels)) (p : MoogFilter α) (sampleRate : α)
    (inputs outputs : Buffers α) (nframes : Nat) : MoogFilter α × Buffers α :=
  let cutoff := p.fCutoffFreq / sampleRate
  let resonance := p.fResonance
  let drive := p.fDrive
  let outputGain := p.fOutputGain
  order.foldl (runChannelFrames (coeffs cutoff resonance outputGain) drive inputs nframes)
    (p, outputs)

/-- A value whose product with zero is zero.  In IEEE arithmetic these are exactly the
finite values: for an infinity or a NaN the product is NaN.  In a field every value
qualifies. -/
abbrev FiniteValue (x : α) : Prop := x * 0 = 0

/-- The two facts about zero that the recurrence uses: `0 + 0 = 0` and `0 - 0 = 0`. -/
abbrev ZeroArith (α : Type) [Zero α] [Add α] [Sub α] : Prop :=
  (0 : α) + 0 = 0 ∧ (0 : α) - 0 = 0

/-- The five coefficients of the two-pole stage are finite. -/
abbrev FiniteTwoPole (c : Coeffs α) : Prop :=
  FiniteValue c.a0 ∧ FiniteValue c.a1 ∧ FiniteValue c.a2 ∧ FiniteValue c.b1 ∧ FiniteValue c.b2

/-- All seven block coefficients are finite. -/
abbrev FiniteCoeffs (c : Coeffs α) : Prop :=
  FiniteValue c.fb ∧ FiniteValue c.g ∧ FiniteTwoPole c

/-- A value on which the four identities `0 * v = 0`, `v - 0 = v`, `v * 1 = v` and
`1 * v = v` hold.  In IEEE arithmetic they hold for every finite value; in a field for
every value. -/
abbrev ExactValue (v : α) : Prop := 0 * v = 0 ∧ v - 0 = v ∧ v * 1 = v ∧ 1 * v = v

/-- The six slots of a channel state, as a list. -/
def slots (s : ChannelState α) : List α :=
  [s.delay 0, s.delay 1, s.delay 2, s.delay 3, s.state 0, s.state 1]

end Embedding

section Binary32

/-- IEEE 754 binary32 values (`float`).  A finite value is `(-1)^neg * m * 2^e` with `m`
odd, or `m = 0` (then `neg = false` and `e = 0`: the two signed zeros, which `==` does not
distinguish, are one value).  The NaNs are one value. -/
inductive F32 where
  | fin (neg : Bool) (m : Nat) (e : Int)
  | inf (neg : Bool)
  | nan
  deriving DecidableEq

namespace F32

/-- The zero of binary32. -/
def zero : F32 := fin false 0 0

/-- Floor of the base-2 logarithm, by repeated halving; `fuel` bounds the number of steps. -/
def log2Fuel : Nat → Nat → Nat
  | 0, _ => 0
  | fuel + 1, n => if n < 2 then 0 else log2Fuel fuel (n / 2) + 1

/-- Floor of the base-2 logarithm of `n` (0 for `n = 0`). -/
def ilog2 (n : Nat) : Nat := log2Fuel n n

/-- The binary32 value `(-1)^neg * M * 2^e` for a significand `M <= 2^24` that needs no
further rounding: trailing zero bits are moved into the exponent, and a magnitude of
`2^128` or more is an infinity. -/
def mk (neg : Bool) (M : Nat) (e : Int) : F32 :=
  if M = 0 then zero
  else
    let tz := ilog2 (M ^^^ (M - 1))
    let m := M / 2 ^ tz
    let e2 := e + tz
    if 128 ≤ e2 + ((ilog2 m : Nat) : Int) then inf neg else fin neg m e2

/-- The integer part of `(N / D) / 2^E`. -/
def scaledQuot (N D : Nat) (E : Int) : Nat :=
  (N * 2 ^ (-E).toNat) / (D * 2 ^ E.toNat)

/-- Rounding to nearest, ties to even, of the exact value `(-1)^neg * (N / D) * 2^e0`
(`D > 0`) to binary32: 24 significant bits, least exponent of the last place `-149`
(subnormals), overflow to infinity. -/
def round (neg : Bool) (N D : Nat) (e0 : Int) : F32 :=
  if N = 0 then zero
  else
    let L : Int := ((ilog2 N : Nat) : Int) - ((ilog2 D : Nat) : Int)
    let E1 : Int := L - 23
    let E2 : Int := if scaledQuot N D E1 < 2 ^ 23 then E1 - 1 else E1
    let E : Int := if E2 + e0 < -149 then -149 - e0 else E2
    let num := N * 2 ^ (-E).toNat
    let den := D * 2 ^ E.toNat
    let q := num / den
    let r := num % den
    let M := if den < 2 * r ∨ (2 * r = den ∧ q % 2 = 1) then q + 1 else q
    mk neg M (E + e0)

/-- Negation. -/
def neg : F32 → F32
  | fin s m e => if m = 0 then zero else fin (!s) m e
  | inf s => inf (!s)
  | nan => nan

/-- Addition: the exact sum of two finite values, rounded; IEEE rules for infinities and
NaN (`inf + -inf` is NaN). -/
def add : F32 → F32 → F32
  | fin s1 m1 e1, fin s2 m2 e2 =>
    let e := min e1 e2
    let a : Int := (if s1 then -1 else 1) * ((m1 * 2 ^ (e1 - e).toNat : Nat) : Int)
    let b : Int := (if s2 then -1 else 1) * ((m2 * 2 ^ (e2 - e).toNat : Nat) : Int)
    let c := a + b
    round (decide (c < 0)) c.natAbs 1 e
  | fin _ _ _, inf s => inf s
  | inf s, fin _ _ _ => inf s
  | inf s1, inf s2 => if s1 = s2 then inf s1 else nan
  | _, _ => nan

/-- Subtraction, `x + (-y)`. -/
def sub (x y : F32) : F32 := add x (neg y)

/-- Multiplication: the exact product of two finite values, rounded; IEEE rules for
infinities and NaN (`0 * inf` is NaN). -/
def mul : F32 → F32 → F32
  | fin s1 m1 e1, fin s2 m2 e2 => round (xor s1 s2) (m1 * m2) 1 (e1 + e2)
  | fin s1 m1 _, inf s2 => if m1 = 0 then nan else inf (xor s1 s2)
  | inf s1, fin s2 m2 _ => if m2 = 0 then nan else inf (xor s1 s2)
  | inf s1, inf s2 => inf (xor s1 s2)
  | _, _ => nan

/-- Division: the exact quotient of two finite values, rounded; a nonzero value divided
by zero is an infinity, `0 / 0` and `inf / inf` are NaN, a finite value divided by an
infinity is zero. -/
def div : F32 → F32 → F32
  | fin s1 m1 e1, fin s2 m2 e2 =>
    if m2 = 0 then (if m1 = 0 then nan else inf s1)
    else round (xor s1 s2) m1 m2 (e1 - e2)
  | fin _ _ _, inf _ => zero
  | inf s1, fin s2 _ _ => inf (xor s1 s2)
  | _, _ => nan

instance : Zero F32 := ⟨zero⟩
instance : One F32 := ⟨fin false 1 0⟩
instance : Add F32 := ⟨add⟩
instance : Sub F32 := ⟨sub⟩
instance : Mul F32 := ⟨mul⟩
instance : Div F32 := ⟨div⟩
instance : Neg F32 := ⟨neg⟩
instance (n : Nat) [n.AtLeastTwo] : OfNat F32 n := ⟨round false n 1 0⟩
instance : OfScientific F32 :=
  ⟨fun m s e => if s then round false m (10 ^ e) 0 else round false (m * 10 ^ e) 1 0⟩

end F32

end Binary32

section ParameterMetadata

variable {α : Type} [Field α]

/-- `MoogFilter::initParameter` (moogFilter.cpp:39-81).  The hint bits
`kParameterIsAutomable` and `kParameterIsLogarithmic` are constants of the host
framework and are taken as arguments; the result is the `Parameter&` after the call. -/
def initParameter (kParameterIsAutomable kParameterIsLogarithmic : Nat) (index : Nat)
    (parameter : Parameter α) : Parameter α :=
  if index ≥ kNumParams then parameter
  else if index = kCutoffFreq then
    { parameter with
      hints := kParameterIsAutomable ||| kParameterIsLogarithmic
      name := "Cutoff"
      symbol := "cutoff"
      unit := "Hz"
      ranges := { defaultValue := 1000, min := 20, max := 20000 } }
  else if index = kResonance then
    { parameter with
      hints := kParameterIsAutomable
      name := "Resonance"
      symbol := "resonance"
      unit := ""
      ranges := { defaultValue := 0.1, min := 0, max := 1 } }
  else if index = kDrive then
    { parameter with
      hints := kParameterIsAutomable
      name := "Drive"
      symbol := "drive"
      unit := ""
      ranges := { defaultValue := 0, min := 0, max := 1 } }
  else if index = kOutputGain then
    { parameter with
      hints := kParameterIsAutomable
      name := "Output Gain"
      symbol := "output_gain"
      unit := "dB"
      ranges := { defaultValue := 0, min := -60, max := 12 } }
  else parameter

end ParameterMetadata

section Instances

/-- The end-to-end setting of the specification (section 8): `cutoff = 1000`,
`resonance = 0.1`, `drive = 1.0`, `outputGain = 1.0`, all delay and state slots zero. -/
def endToEnd : MoogFilter ℚ :=
  { fCutoffFreq := 1000, fResonance := 1 / 10, fDrive := 1, fOutputGain := 1,
    fDelay := fun _ _ => 0, fState := fun _ _ => 0 }

/-- A single impulse `[1, 0, 0, ...]` on channel 0 and silence on channel 1. -/
def impulse {α : Type} [Zero α] [One α] : Buffers α :=
  fun ch i => if ch = 0 ∧ i = 0 then 1 else 0

/-- Silence on both channels. -/
def silence {α : Type} [Zero α] : Buffers α := fun _ _ => 0

/-- An object with `cutoff = 0` and `resonance = 1`. -/
def zeroCutoff : MoogFilter ℚ :=
  { fCutoffFreq := 0, fResonance := 1, fDrive := 1, fOutputGain := 1,
    fDelay := fun _ _ => 0, fState := fun _ _ => 0 }

/-- An in-range setting with drive 0 whose feedback loop gain `g * fb` is 7 at sample
rate 48000: `cutoff = 12000`, `resonance = 1`, `outputGain = 10`; the delay line of each
channel holds `[0, 0, 0, 1]` and the feedback state is zero. -/
def gainLoop {α : Type} [Field α] : MoogFilter α :=
  { fCutoffFreq := 12000, fResonance := 1, fDrive := 0, fOutputGain := 10,
    fDelay := fun _ j => if j = 3 then 1 else 0, fState := fun _ _ => 0 }

/-- An in-range setting with drive 0 to be run at sample rate 10000, below the cutoff:
`cutoff = 20000`, `resonance = 0.5`, `outputGain = 1`; the delay lines are zero and
both feedback-state slots of each channel hold 1. -/
def lowRate {α : Type} [Field α] : MoogFilter α :=
  { fCutoffFreq := 20000, fResonance := 1 / 2, fDrive := 0, fOutputGain := 1,
    fDelay := fun _ _ => 0, fState := fun _ _ => 1 }

/-- An in-range setting with drive 0 and nonzero delay and state slots: the end-to-end
parameters with every slot holding 1. -/
def ringing {α : Type} [Field α] : MoogFilter α :=
  { fCutoffFreq := 1000, fResonance := 1 / 10, fDrive := 0, fOutputGain := 1,
    fDelay := fun _ _ => 1, fState := fun _ _ => 1 }

/-- The constant signal `[1, 1, 1, ...]` on channel 0 and silence on channel 1; it agrees
with `impulse` on frame 0 and differs from it on every later frame. -/
def stepSignal {α : Type} [Zero α] [One α] : Buffers α :=
  fun ch _ => if ch = 0 then 1 else 0

/-- The end-to-end setting in binary32. -/
def endToEnd32 : MoogFilter F32 :=
  { fCutoffFreq := 1000, fResonance := 0.1, fDrive := 1, fOutputGain := 1,
    fDelay := fun _ _ => 0, fState := fun _ _ => 0 }

/-- A binary32 setting whose cutoff equals the sample rate 8000 it is run at. -/
def equalRate32 : MoogFilter F32 :=
  { fCutoffFreq := 8000, fResonance := 0.1, fDrive := 1, fOutputGain := 1,
    fDelay := fun _ _ => 0, fState := fun _ _ => 0 }

/-- A binary32 setting with the in-range cutoff 16762.3515625, to be run at sample rate
8000, where the rounded sum `1 + cutoff * (1.61803398875 - cutoff)` is zero. -/
def singular32 : MoogFilter F32 :=
  { fCutoffFreq := 16762.3515625, fResonance := 0.1, fDrive := 1, fOutputGain := 1,
    fDelay := fun _ _ => 0, fState := fun _ _ => 0 }

/-- The end-to-end setting in binary32 with resonance 0. -/
def noResonance32 : MoogFilter F32 :=
  { fCutoffFreq := 1000, fResonance := 0, fDrive := 1, fOutputGain := 1,
    fDelay := fun _ _ => 0, fState := fun _ _ => 0 }

/-- A binary32 setting with drive 0 and every parameter in range whose feedback loop gain
`g * fb` is `1 - 2^-24` at sample rate 48000: `cutoff = 12000`, `resonance = 1`,
`outputGain = 1.428571343421936`; the delay line of each channel holds `[0, 0, 0, 1]` and
the feedback state is zero. -/
def nearUnity32 : MoogFilter F32 :=
  { fCutoffFreq := 12000, fResonance := 1, fDrive := 0, fOutputGain := 1.428571343421936,
    fDelay := fun _ j => if j = 3 then 1 else 0, fState := fun _ _ => 0 }

/-- The channel state on the limit cycle of `nearUnity32` at sample rate 48000: delay
slots `+-(1 - 2^-22)` and feedback state `+-8551287 * 2^-24` (about `+-0.5097`). -/
def cycleState32 : ChannelState F32 :=
  { delay := ![F32.fin false 4194303 (-22), F32.fin true 4194303 (-22),
      F32.fin false 4194303 (-22), F32.fin true 4194303 (-22)],
    state := ![F32.fin false 8551287 (-24), F32.fin true 8551287 (-24)] }

end Instances

section ChannelLemmas

theorem write_apply {α : Type} {m n : Nat} (a : Fin m → Fin n → α) (i i2 : Fin m) (j j2 : Fin n) (v : α) :
    write a i j v i2 j2 = if i2 = i ∧ j2 = j then v else a i2 j2 := rfl

variable {α : Type} [Add α] [Sub α] [Mul α]

/-- The effect of the channel-loop body on every slot of the object and on
every sample of the output buffers. -/
theorem runChannel_spec (fb g a0 a1 a2 b1 b2 inp : α) (i : Nat)
    (st : MoogFilter α × Buffers α) (ch : Fin kNumChannels) :
    let out := g * (inp - fb * st.1.fDelay ch 3)
    let y := a0 * (st.1.fDelay ch 1 + a1 * st.1.fDelay ch 2 + a2 * st.1.fDelay ch 3)
      - b1 * st.1.fState ch 0 - b2 * st.1.fState ch 1
    let r := runChannel fb g a0 a1 a2 b1 b2 inp i st ch
    r.1.fCutoffFreq = st.1.fCutoffFreq ∧ r.1.fResonance = st.1.fResonance ∧
    r.1.fDrive = st.1.fDrive ∧ r.1.fOutputGain = st.1.fOutputGain ∧
    (∀ c2 j, r.1.fDelay c2 j = if c2 = ch then
        (if j = 0 then st.1.fDelay ch 1 else if j = 1 then st.1.fDelay ch 2
          else if j = 2 then st.1.fDelay ch 3 else out) else st.1.fDelay c2 j) ∧
    (∀ c2 j, r.1.fState c2 j = if c2 = ch then
        (if j = 0 then y else st.1.fState ch 0) else st.1.fState c2 j) ∧
    (∀ c2 k, r.2 c2 k = if c2 = ch ∧ k = i then y else st.2 c2 k) := by
  refine ⟨rfl, rfl, rfl, rfl, ?_, ?_, ?_⟩
  · intro c2 j
    by_cases h : c2 = ch
    · subst h
      fin_cases j <;> simp [runChannel, write_apply]
    · simp [runChannel, write_apply, h]
  · intro c2 j
    by_cases h : c2 = ch
    · subst h
      fin_cases j <;> simp [runChannel, write_apply]
    · simp [runChannel, write_apply, h]
  · intro c2 k
    simp [runChannel, writeBuf, write_apply]

end ChannelLemmas

section FrameLemmas

variable {α : Type} [One α] [OfNat α 2] [OfScientific α] [Add α] [Sub α] [Mul α] [Div α]

theorem forLoop_succ {σ : Type} (body : Nat → σ → σ) (n : Nat) (s : σ) :
    forLoop body (n + 1) s = body n (forLoop body n s) := rfl

/-- One frame of `run`, spelled out: both channels are stepped, channel 0 first. -/
theorem runFrame_eq (cutoff resonance drive outputGain : α) (inputs : Buffers α) (i : Nat)
    (st : MoogFilter α × Buffers α) :
    runFrame cutoff resonance drive outputGain inputs i st =
      let c := coeffs cutoff resonance outputGain
      runChannel c.fb c.g c.a0 c.a1 c.a2 c.b1 c.b2 (inputs 0 i * drive) i
        (runChannel c.fb c.g c.a0 c.a1 c.a2 c.b1 c.b2 (inputs 0 i * drive) i st 0) 1 := by
  simp [runFrame, Fin.foldl_succ, Fin.foldl_zero]

/-- The effect of one iteration of the frame loop on every slot of channel `ch`. -/
theorem runFrame_spec (cutoff resonance drive outputGain : α) (inputs : Buffers α) (i : Nat)
    (st : MoogFilter α × Buffers α) (ch : Fin kNumChannels) :
    let c := coeffs cutoff resonance outputGain
    let out := c.g * (inputs 0 i * drive - c.fb * st.1.fDelay ch 3)
    let y := c.a0 * (st.1.fDelay ch 1 + c.a1 * st.1.fDelay ch 2 + c.a2 * st.1.fDelay ch 3)
      - c.b1 * st.1.fState ch 0 - c.b2 * st.1.fState ch 1
    let r := runFrame cutoff resonance drive outputGain inputs i st
    r.1.fDelay ch 0 = st.1.fDelay ch 1 ∧ r.1.fDelay ch 1 = st.1.fDelay ch 2 ∧
    r.1.fDelay ch 2 = st.1.fDelay ch 3 ∧ r.1.fDelay ch 3 = out ∧
    r.1.fState ch 0 = y ∧ r.1.fState ch 1 = st.1.fState ch 0 ∧
    (∀ k, r.2 ch k = if k = i then y else st.2 ch k) := by
  intro c out y r
  have hr : r = runChannel c.fb c.g c.a0 c.a1 c.a2 c.b1 c.b2 (inputs 0 i * drive) i
        (runChannel c.fb c.g c.a0 c.a1 c.a2 c.b1 c.b2 (inputs 0 i * drive) i st 0) 1 :=
    runFrame_eq cutoff resonance drive outputGain inputs i st
  obtain ⟨-, -, -, -, hd0, hs0, ho0⟩ :=
    runChannel_spec c.fb c.g c.a0 c.a1 c.a2 c.b1 c.b2 (inputs 0 i * drive) i st 0
  obtain ⟨-, -, -, -, hd1, hs1, ho1⟩ :=
    runChannel_spec c.fb c.g c.a0 c.a1 c.a2 c.b1 c.b2 (inputs 0 i * drive) i
      (runChannel c.fb c.g c.a0 c.a1 c.a2 c.b1 c.b2 (inputs 0 i * drive) i st 0) 1
  rw [hr]
  fin_cases ch
  · simp [hd1, hs1, ho1, hd0, hs0, ho0, out, y]
  · simp [hd1, hs1, ho1, hd0, hs0, ho0, out, y]

/-- The parameters of the object are not written by the frame loop. -/
theorem runFrame_params (cutoff resonance drive outputGain : α) (inputs : Buffers α) (i : Nat)
    (st : MoogFilter α × Buffers α) :
    let r := runFrame cutoff resonance drive outputGain inputs i st
    r.1.fCutoffFreq = st.1.fCutoffFreq ∧ r.1.fResonance = st.1.fResonance ∧
    r.1.fDrive = st.1.fDrive ∧ r.1.fOutputGain = st.1.fOutputGain := by
  intro r
  have hr : r = _ := runFrame_eq cutoff resonance drive outputGain inputs i st
  rw [hr]
  exact ⟨rfl, rfl, rfl, rfl⟩

/-- Unfolding `run` by its last frame. -/
theorem run_succ (p : MoogFilter α) (sampleRate : α) (inputs outputs : Buffers α) (n : Nat) :
    run p sampleRate inputs outputs (n + 1) =
      runFrame (p.fCutoffFreq / sampleRate) p.fResonance p.fDrive p.fOutputGain inputs n
        (run p sampleRate inputs outputs n) := rfl

theorem run_zero (p : MoogFilter α) (sampleRate : α) (inputs outputs : Buffers α) :
    run p sampleRate inputs outputs 0 = (p, outputs) := rfl

/-- A frame writes only sample `n` of each output channel, so a sample, once written,
is the same in every longer call. -/
theorem run_output_stable (p : MoogFilter α) (sampleRate : α) (inputs outputs : Buffers α)
    (ch : Fin kNumChannels) (k n : Nat) (h : k < n) :
    (run p sampleRate inputs outputs n).2 ch k =
      (run p sampleRate inputs outputs (k + 1)).2 ch k := by
  induction n with
  | zero => omega
  | succ n ih =>
    rcases Nat.lt_succ_iff_lt_or_eq.mp h with hlt | heq
    · obtain ⟨-, -, -, -, -, -, h6⟩ :=
        runFrame_spec (p.fCutoffFreq / sampleRate) p.fResonance p.fDrive p.fOutputGain inputs n
          (run p sampleRate inputs outputs n) ch
      rw [run_succ, h6 k, if_neg (by omega), ih hlt]
    · rw [heq]

/-- One iteration of the frame loop acts on channel `ch` as one step of the
specification's single-channel recurrence, fed with the driven sample of input
channel 0. -/
theorem runFrame_eq_specStep (cutoff resonance drive outputGain : α) (inputs : Buffers α)
    (i : Nat) (st : MoogFilter α × Buffers α) (ch : Fin kNumChannels) :
    channelOf (runFrame cutoff resonance drive outputGain inputs i st).1 ch =
        (specStep (coeffs cutoff resonance outputGain) (inputs 0 i * drive)
          (channelOf st.1 ch)).1 ∧
    (runFrame cutoff resonance drive outputGain inputs i st).2 ch i =
        (specStep (coeffs cutoff resonance outputGain) (inputs 0 i * drive)
          (channelOf st.1 ch)).2 := by
  obtain ⟨h0, h1, h2, h3, h4, h5, h6⟩ :=
    runFrame_spec cutoff resonance drive outputGain inputs i st ch
  constructor
  · have e : ∀ a b : ChannelState α, a.delay = b.delay → a.state = b.state → a = b := by
      intro a b h1 h2
      cases a
      cases b
      simp_all
    apply e
    · funext j
      fin_cases j <;> simp [channelOf, specStep, h0, h1, h2, h3]
    · funext j
      fin_cases j <;> simp [channelOf, specStep, h4, h5]
  · rw [h6 i, if_pos rfl]
    simp [channelOf, specStep]

/-- What `run` computes on channel `ch`: the single-channel recurrence of the
specification, started from the channel's own state, but always fed with the signal of
input channel 0. -/
theorem run_eq_spec_on_input0 (p : MoogFilter α) (sampleRate : α) (inputs outputs : Buffers α)
    (ch : Fin kNumChannels) (n : Nat) :
    channelOf (run p sampleRate inputs outputs n).1 ch =
        specState (blockCoeffs p sampleRate) p.fDrive (inputs 0) (channelOf p ch) n ∧
    (run p sampleRate inputs outputs (n + 1)).2 ch n =
        specOut (blockCoeffs p sampleRate) p.fDrive (inputs 0) (channelOf p ch) n := by
  have hstate : ∀ m, channelOf (run p sampleRate inputs outputs m).1 ch =
      specState (blockCoeffs p sampleRate) p.fDrive (inputs 0) (channelOf p ch) m := by
    intro m
    induction m with
    | zero => rfl
    | succ m ih =>
      rw [run_succ, (runFrame_eq_specStep _ _ _ _ _ _ _ _).1, ih]
      rfl
  refine ⟨hstate n, ?_⟩
  rw [run_succ, (runFrame_eq_specStep _ _ _ _ _ _ _ _).2, hstate n]
  rfl

end FrameLemmas

section ParameterClaims

variable {α : Type}

/-- C4: for each of the four parameter indices, reading a parameter right after
writing `value` to it returns exactly `value`, whatever `value` is (no clamping to the
declared range, no conversion, no smoothing). -/
theorem get_after_set (p : MoogFilter α) (index : Nat) (value : α) (h : index < kNumParams) :
    getParameterValue (setParameterValue p index value) index = some value := by
  have h4 : index < 4 := h
  interval_cases index <;> simp [getParameterValue, setParameterValue]

/-- C4 witness: drive (index 2, declared range `[0, 1]`) written with 99999. -/
theorem get_after_set_witness :
    (2 : Nat) < kNumParams ∧
      getParameterValue (setParameterValue endToEnd 2 99999) 2 = some 99999 :=
  ⟨by decide, get_after_set endToEnd 2 99999 (by decide)⟩

/-- C10: for every index that is not one of the four parameters (`index >= 4`),
`setParameterValue` returns the object unchanged: all four parameter values and every
delay and state slot are as before. -/
theorem setParameterValue_invalid (p : MoogFilter α) (index : Nat) (value : α)
    (h : kNumParams ≤ index) : setParameterValue p index value = p := by
  have h4 : 4 ≤ index := h
  have e0 : index ≠ 0 := by omega
  have e1 : index ≠ 1 := by omega
  have e2 : index ≠ 2 := by omega
  have e3 : index ≠ 3 := by omega
  simp [setParameterValue, e0, e1, e2, e3]

/-- C10 witness: index 4 (the enumerator `kNumParams`) with value 7. -/
theorem setParameterValue_invalid_witness :
    kNumParams ≤ 4 ∧ setParameterValue endToEnd 4 7 = endToEnd :=
  ⟨by decide, setParameterValue_invalid endToEnd 4 7 (by decide)⟩

end ParameterClaims

section Claims

variable {α : Type} [One α] [OfNat α 2] [OfScientific α] [Add α] [Sub α] [Mul α] [Div α]

/-- C1: one frame of `run` (frame `n`, from the state left by the `n` frames before it,
which for `n = 0` is an arbitrary object) pushes `out = g*(in - fb*d3)` into the delay
line, leaving `delay = [d1, d2, d3, out]`, writes
`y = a0*(d1 + a1*d2 + a2*d3) - b1*s0 - b2*s1` to `outputs[ch][n]` and leaves
`state = [y, s0]`, with the coefficients given by the stated formulas; `in` is the
driven input the frame computes. -/
theorem run_frame_recurrence (p : MoogFilter α) (sampleRate : α) (inputs outputs : Buffers α)
    (n : Nat) (ch : Fin kNumChannels) :
    let cutoffNorm := p.fCutoffFreq / sampleRate
    let fb := p.fResonance + p.fResonance / (1 - cutoffNorm)
    let g := p.fOutputGain / (1 + fb)
    let a0 := 1 / (1 + cutoffNorm * (1.61803398875 - cutoffNorm))
    let a1 := 2 * a0
    let a2 := a0
    let b1 := 2 * (1 - cutoffNorm) * a0
    let b2 := (1 - cutoffNorm * (1.61803398875 - cutoffNorm)) * a0
    let before := (run p sampleRate inputs outputs n).1
    let d1 := before.fDelay ch 1
    let d2 := before.fDelay ch 2
    let d3 := before.fDelay ch 3
    let s0 := before.fState ch 0
    let s1 := before.fState ch 1
    let inp := inputs 0 n * p.fDrive
    let out := g * (inp - fb * d3)
    let y := a0 * (d1 + a1 * d2 + a2 * d3) - b1 * s0 - b2 * s1
    let after := run p sampleRate inputs outputs (n + 1)
    after.1.fDelay ch 0 = d1 ∧ after.1.fDelay ch 1 = d2 ∧ after.1.fDelay ch 2 = d3 ∧
    after.1.fDelay ch 3 = out ∧ after.2 ch n = y ∧
    after.1.fState ch 0 = y ∧ after.1.fState ch 1 = s0 := by
  intro cutoffNorm fb g a0 a1 a2 b1 b2 before d1 d2 d3 s0 s1 inp out y after
  obtain ⟨h0, h1, h2, h3, h4, h5, h6⟩ :=
    runFrame_spec cutoffNorm p.fResonance p.fDrive p.fOutputGain inputs n
      (run p sampleRate inputs outputs n) ch
  refine ⟨h0, h1, h2, h3, ?_, h4, h5⟩
  have := h6 n
  simpa using this

/-- C2, the code at a failing input: in the end-to-end setting with an impulse on
input channel 0 and silence on input channel 1, sample 1 of `outputs[1]` written by
`run` is nonzero, while the specification's single-channel recurrence applied to
`inputs[1]` (silence) from channel 1's zero state gives 0 there.  `run` feeds
`inputs[0][i] * drive` to every channel. -/
theorem run_channel1_not_spec_on_input1 :
    (run endToEnd 48000 impulse silence 2).2 1 1
        = 1247477760000000000000000 / 1601088199790192453039177 ∧
    specOut (blockCoeffs endToEnd 48000) endToEnd.fDrive (impulse 1) (channelOf endToEnd 1) 1
        = 0 ∧
    (run endToEnd 48000 impulse silence 2).2 1 1 ≠
      specOut (blockCoeffs endToEnd 48000) endToEnd.fDrive (impulse 1) (channelOf endToEnd 1) 1 := by
  have h1 : (run endToEnd 48000 impulse silence 2).2 1 1
      = 1247477760000000000000000 / 1601088199790192453039177 := by
    rw [(run_eq_spec_on_input0 endToEnd 48000 impulse silence 1 1).2]
    norm_num [specOut, specStep, specState, blockCoeffs, coeffs, endToEnd, impulse, channelOf]
  have h2 : specOut (blockCoeffs endToEnd 48000) endToEnd.fDrive (impulse 1)
      (channelOf endToEnd 1) 1 = 0 := by
    norm_num [specOut, specStep, specState, blockCoeffs, coeffs, endToEnd, impulse, channelOf]
  refine ⟨h1, h2, ?_⟩
  rw [h1, h2]
  norm_num

/-- C3, the code at a failing input: from the zero state, with input channel 1 silent
in both calls, an impulse on input channel 0 makes sample 1 of `outputs[1]` nonzero,
and the two calls, which differ only in input channel 0, leave different values in
`outputs[1][1]` and in `fState[1][0]`. -/
theorem run_channel1_depends_on_input0 :
    (∀ i, (impulse : Buffers ℚ) 1 i = 0) ∧ (∀ i, (silence : Buffers ℚ) 1 i = 0) ∧
    (run endToEnd 48000 impulse silence 2).2 1 1 ≠ 0 ∧
    (run endToEnd 48000 silence silence 2).2 1 1 = 0 ∧
    (run endToEnd 48000 impulse silence 2).1.fState 1 0 ≠
      (run endToEnd 48000 silence silence 2).1.fState 1 0 := by
  have h1 : (run endToEnd 48000 impulse silence 2).2 1 1
      = 1247477760000000000000000 / 1601088199790192453039177 := by
    rw [(run_eq_spec_on_input0 endToEnd 48000 impulse silence 1 1).2]
    norm_num [specOut, specStep, specState, blockCoeffs, coeffs, endToEnd, impulse, channelOf]
  have h2 : (run endToEnd 48000 silence silence 2).2 1 1 = 0 := by
    rw [(run_eq_spec_on_input0 endToEnd 48000 silence silence 1 1).2]
    norm_num [specOut, specStep, specState, blockCoeffs, coeffs, endToEnd, silence, channelOf]
  have e : ∀ x : Buffers ℚ, (run endToEnd 48000 x silence 2).1.fState 1 0 =
      (run endToEnd 48000 x silence 2).2 1 1 := by
    intro x
    obtain ⟨-, -, -, -, h4, -, h6⟩ :=
      runFrame_spec (endToEnd.fCutoffFreq / 48000) endToEnd.fResonance endToEnd.fDrive
        endToEnd.fOutputGain x 1 (run endToEnd 48000 x silence 1) 1
    rw [run_succ, h4, h6 1, if_pos rfl]
  refine ⟨?_, ?_, ?_, h2, ?_⟩
  · intro i
    simp [impulse]
  · intro i
    rfl
  · rw [h1]
    norm_num
  · rw [e impulse, e silence, h1, h2]
    norm_num

/-- In exact arithmetic, in the specification's end-to-end setting (zero state,
`cutoff = 1000`, `resonance = 0.1`, `drive = 1`, `outputGain = 1`, sample rate 48000,
64 frames of an impulse), output sample 0 of channel 0 is 0, whereas
`g * (drive * 1.0)` is `94/113`. -/
theorem first_sample_exact :
    (run endToEnd 48000 impulse silence 64).2 0 0 = 0 ∧
    (blockCoeffs endToEnd 48000).g * (endToEnd.fDrive * impulse 0 0) = 94 / 113 ∧
    (run endToEnd 48000 impulse silence 64).2 0 0 ≠
      (blockCoeffs endToEnd 48000).g * (endToEnd.fDrive * impulse 0 0) := by
  have h1 : (run endToEnd 48000 impulse silence 64).2 0 0 = 0 := by
    rw [run_output_stable endToEnd 48000 impulse silence 0 0 64 (by decide),
      (run_eq_spec_on_input0 endToEnd 48000 impulse silence 0 0).2]
    norm_num [specOut, specStep, specState, blockCoeffs, coeffs, endToEnd, impulse, channelOf]
  have h2 : (blockCoeffs endToEnd 48000).g * (endToEnd.fDrive * impulse 0 0) = 94 / 113 := by
    norm_num [blockCoeffs, coeffs, endToEnd, impulse]
  refine ⟨h1, h2, ?_⟩
  rw [h1, h2]
  norm_num

end Claims

section CutoffClaims

variable {α : Type} [Field α]

/-- C7: when the cutoff parameter is 0 (so the normalised cutoff is 0 at any sample
rate), the two-pole coefficients `run` computes are exactly `a0 = 1`, `b1 = 2`,
`b2 = 1`, and the sample each frame writes is `(d1 + 2*d2 + d3) - 2*s0 - s1`. -/
theorem coeffs_zero_cutoff (p : MoogFilter α) (sampleRate : α) (h : p.fCutoffFreq = 0) :
    (blockCoeffs p sampleRate).a0 = 1 ∧ (blockCoeffs p sampleRate).b1 = 2 ∧
    (blockCoeffs p sampleRate).b2 = 1 ∧
    ∀ (inputs outputs : Buffers α) (n : Nat) (ch : Fin kNumChannels),
      (run p sampleRate inputs outputs (n + 1)).2 ch n =
        ((run p sampleRate inputs outputs n).1.fDelay ch 1
          + 2 * (run p sampleRate inputs outputs n).1.fDelay ch 2
          + (run p sampleRate inputs outputs n).1.fDelay ch 3)
        - 2 * (run p sampleRate inputs outputs n).1.fState ch 0
        - (run p sampleRate inputs outputs n).1.fState ch 1 := by
  have ha : (blockCoeffs p sampleRate).a0 = 1 := by simp [blockCoeffs, coeffs, h]
  have hb1 : (blockCoeffs p sampleRate).b1 = 2 := by simp [blockCoeffs, coeffs, h]
  have hb2 : (blockCoeffs p sampleRate).b2 = 1 := by simp [blockCoeffs, coeffs, h]
  refine ⟨ha, hb1, hb2, ?_⟩
  intro inputs outputs n ch
  obtain ⟨-, -, -, -, -, -, h6⟩ :=
    runFrame_spec (p.fCutoffFreq / sampleRate) p.fResonance p.fDrive p.fOutputGain inputs n
      (run p sampleRate inputs outputs n) ch
  have h7 := h6 n
  rw [run_succ, h7]
  simp [coeffs, h]

/-- C7 witness: the object `zeroCutoff` at sample rate 48000. -/
theorem coeffs_zero_cutoff_witness :
    zeroCutoff.fCutoffFreq = 0 ∧ (blockCoeffs zeroCutoff 48000).a0 = 1 ∧
      (blockCoeffs zeroCutoff 48000).b1 = 2 ∧ (blockCoeffs zeroCutoff 48000).b2 = 1 :=
  ⟨rfl, (coeffs_zero_cutoff zeroCutoff 48000 rfl).1, (coeffs_zero_cutoff zeroCutoff 48000 rfl).2.1,
    (coeffs_zero_cutoff zeroCutoff 48000 rfl).2.2.1⟩

/-- C8 as stated fails: with `cutoff = 0` and `resonance = 1` the feedback coefficient
`run` computes is 2, not the resonance 1. -/
theorem fb_zero_cutoff_ne_resonance :
    (blockCoeffs zeroCutoff 48000).fb = 2 ∧
      (blockCoeffs zeroCutoff 48000).fb ≠ zeroCutoff.fResonance := by
  have h : (blockCoeffs zeroCutoff 48000).fb = 2 := by
    norm_num [blockCoeffs, coeffs, zeroCutoff]
  refine ⟨h, ?_⟩
  rw [h]
  norm_num [zeroCutoff]

/-- C8 amended: when the cutoff parameter is 0 the feedback coefficient `run` computes
is twice the resonance, `fb = resonance + resonance / (1 - 0) = 2 * resonance`. -/
theorem fb_zero_cutoff (p : MoogFilter α) (sampleRate : α) (h : p.fCutoffFreq = 0) :
    (blockCoeffs p sampleRate).fb = 2 * p.fResonance := by
  simp [blockCoeffs, coeffs, h]
  ring

/-- C8 witness: the object `zeroCutoff` at sample rate 48000. -/
theorem fb_zero_cutoff_witness :
    zeroCutoff.fCutoffFreq = 0 ∧ (blockCoeffs zeroCutoff 48000).fb = 2 * zeroCutoff.fResonance :=
  ⟨rfl, fb_zero_cutoff zeroCutoff 48000 rfl⟩

end CutoffClaims

section OrderedClaims

variable {α : Type} [LinearOrderedField α]

end OrderedClaims


section Convergence

open Filter Topology


/-- A first-order linear recurrence with contraction factor and vanishing forcing tends to 0. -/
theorem tendsto_zero_of_contracting_recurrence (x e : ℕ → ℂ) (ρ : ℂ) (hρ : ‖ρ‖ < 1)
    (hx : ∀ n, x (n + 1) = ρ * x n + e n) (he : Tendsto e atTop (𝓝 0)) :
    Tendsto x atTop (𝓝 0) := by
  rw [Metric.tendsto_atTop] at he ⊢
  intro ε hε
  have hδ : 0 < ε * (1 - ‖ρ‖) / 2 := by
    have : 0 < 1 - ‖ρ‖ := by linarith
    positivity
  obtain ⟨N, hN⟩ := he _ hδ
  have hbound : ∀ k, ‖x (N + k)‖ ≤ ‖ρ‖ ^ k * ‖x N‖ + ε / 2 := by
    intro k
    induction k with
    | zero => simp; linarith
    | succ k ih =>
      have h1 : x (N + (k + 1)) = ρ * x (N + k) + e (N + k) := hx (N + k)
      have h2 : ‖e (N + k)‖ < ε * (1 - ‖ρ‖) / 2 := by
        have := hN (N + k) (Nat.le_add_right N k)
        simpa [dist_eq_norm] using this
      have h3 : ‖x (N + (k + 1))‖ ≤ ‖ρ‖ * ‖x (N + k)‖ + ‖e (N + k)‖ := by
        rw [h1]
        calc ‖ρ * x (N + k) + e (N + k)‖ ≤ ‖ρ * x (N + k)‖ + ‖e (N + k)‖ := norm_add_le _ _
          _ = ‖ρ‖ * ‖x (N + k)‖ + ‖e (N + k)‖ := by rw [norm_mul]
      have h4 : ‖ρ‖ * ‖x (N + k)‖ ≤ ‖ρ‖ * (‖ρ‖ ^ k * ‖x N‖ + ε / 2) :=
        mul_le_mul_of_nonneg_left ih (norm_nonneg ρ)
      have h5 : ‖ρ‖ ^ (k + 1) * ‖x N‖ = ‖ρ‖ * (‖ρ‖ ^ k * ‖x N‖) := by ring
      nlinarith [norm_nonneg ρ]
  have hpow : Tendsto (fun k : ℕ => ‖ρ‖ ^ k * ‖x N‖) atTop (𝓝 0) := by
    have := (tendsto_pow_atTop_nhds_zero_of_lt_one (norm_nonneg ρ) hρ).mul_const ‖x N‖
    simpa using this
  rw [Metric.tendsto_atTop] at hpow
  obtain ⟨K, hK⟩ := hpow (ε / 2) (by linarith)
  refine ⟨N + K, fun n hn => ?_⟩
  obtain ⟨k, rfl⟩ : ∃ k, n = N + k := ⟨n - N, by omega⟩
  have hk : K ≤ k := by omega
  have h6 := hK k hk
  rw [Real.dist_eq, sub_zero, abs_of_nonneg (by positivity)] at h6
  rw [dist_eq_norm, sub_zero]
  linarith [hbound k]

/-- Roots of a Schur-stable monic real quadratic. -/
theorem exists_roots_in_unit_disc (b1 b2 : ℝ) (h2 : |b2| < 1) (h1 : |b1| < 1 + b2) :
    ∃ r1 r2 : ℂ, r1 + r2 = -(b1 : ℂ) ∧ r1 * r2 = (b2 : ℂ) ∧ ‖r1‖ < 1 ∧ ‖r2‖ < 1 := by
  rw [abs_lt] at h1 h2
  by_cases hD : 0 ≤ b1 ^ 2 - 4 * b2
  · have hs := Real.sq_sqrt hD
    have hs0 := Real.sqrt_nonneg (b1 ^ 2 - 4 * b2)
    set s := Real.sqrt (b1 ^ 2 - 4 * b2) with hsdef
    have hlt1 : s < 2 - b1 := by
      by_contra hcon
      push_neg at hcon
      nlinarith
    have hlt2 : s < 2 + b1 := by
      by_contra hcon
      push_neg at hcon
      nlinarith
    refine ⟨(((-b1 + s) / 2 : ℝ) : ℂ), (((-b1 - s) / 2 : ℝ) : ℂ), ?_, ?_, ?_, ?_⟩
    · rw [← Complex.ofReal_add, ← Complex.ofReal_neg]
      congr 1
      ring
    · rw [← Complex.ofReal_mul]
      congr 1
      nlinarith
    · rw [Complex.norm_eq_abs, Complex.abs_ofReal, abs_lt]
      constructor <;> linarith
    · rw [Complex.norm_eq_abs, Complex.abs_ofReal, abs_lt]
      constructor <;> linarith
  · push_neg at hD
    have hpos : 0 ≤ 4 * b2 - b1 ^ 2 := by linarith
    have hs := Real.sq_sqrt hpos
    set s := Real.sqrt (4 * b2 - b1 ^ 2) with hsdef
    have hn : ∀ t : ℝ, t ^ 2 = s ^ 2 → ‖(⟨-b1 / 2, t / 2⟩ : ℂ)‖ < 1 := by
      intro t ht
      rw [Complex.norm_eq_abs, Complex.abs_apply, Complex.normSq_mk]
      rw [Real.sqrt_lt' one_pos]
      nlinarith
    refine ⟨⟨-b1 / 2, s / 2⟩, ⟨-b1 / 2, -s / 2⟩, ?_, ?_, hn s rfl, ?_⟩
    · apply Complex.ext <;> simp
      ring
    · apply Complex.ext
      · simp
        nlinarith
      · simp
        ring
    · have := hn (-s) (by ring)
      simpa [neg_div] using this

/-- A second-order real linear recurrence whose characteristic polynomial
`z^2 + b1 z + b2` is Schur stable, driven by a vanishing forcing term, tends to 0. -/
theorem tendsto_zero_of_stable_second_order (S u : ℕ → ℝ) (b1 b2 : ℝ) (h2 : |b2| < 1)
    (h1 : |b1| < 1 + b2) (hS : ∀ n, S (n + 2) = u n - b1 * S (n + 1) - b2 * S n)
    (hu : Tendsto u atTop (𝓝 0)) : Tendsto S atTop (𝓝 0) := by
  obtain ⟨r1, r2, hsum, hprod, hr1, hr2⟩ := exists_roots_in_unit_disc b1 b2 h2 h1
  have huC : Tendsto (fun n => ((u n : ℝ) : ℂ)) atTop (𝓝 0) := by
    have := (Complex.continuous_ofReal.tendsto 0).comp hu
    simpa using this
  have hw : Tendsto (fun n => ((S (n + 1) : ℝ) : ℂ) - r1 * (S n : ℂ)) atTop (𝓝 0) := by
    apply tendsto_zero_of_contracting_recurrence _ (fun n => ((u n : ℝ) : ℂ)) r2 hr2 _ huC
    intro n
    have e1 : (b1 : ℂ) = -(r1 + r2) := by rw [hsum]; ring
    simp only [hS n, Complex.ofReal_sub, Complex.ofReal_mul, e1, ← hprod]
    ring
  have hx : Tendsto (fun n => ((S n : ℝ) : ℂ)) atTop (𝓝 0) := by
    apply tendsto_zero_of_contracting_recurrence _ _ r1 hr1 _ hw
    intro n
    ring
  have := (Complex.continuous_re.tendsto 0).comp hx
  simpa using this

/-- For a normalised cutoff strictly between 0 and 1 the two-pole coefficients of `run`
satisfy the Schur stability conditions. -/
theorem coeffs_two_pole_stable (c r G : ℝ) (hc0 : 0 < c) (hc1 : c < 1) :
    |(coeffs c r G).b2| < 1 ∧ |(coeffs c r G).b1| < 1 + (coeffs c r G).b2 := by
  have hk : 0 < c * (1.61803398875 - c) := by
    apply mul_pos hc0
    norm_num
    linarith
  have hden : 0 < 1 + c * (1.61803398875 - c) := by linarith
  have hb1 : (coeffs c r G).b1 = 2 * (1 - c) / (1 + c * (1.61803398875 - c)) := by
    simp only [coeffs]
    ring
  have hb2 : (coeffs c r G).b2 = (1 - c * (1.61803398875 - c)) / (1 + c * (1.61803398875 - c)) := by
    simp only [coeffs]
    ring
  rw [hb1, hb2]
  constructor
  · rw [abs_lt]
    constructor
    · rw [lt_div_iff₀ hden]
      linarith
    · rw [div_lt_iff₀ hden]
      linarith
  · rw [abs_lt]
    have e : 1 + (1 - c * (1.61803398875 - c)) / (1 + c * (1.61803398875 - c))
        = 2 / (1 + c * (1.61803398875 - c)) := by
      field_simp
      ring
    rw [e]
    constructor
    · rw [← neg_div, div_lt_div_iff_of_pos_right hden]
      linarith
    · rw [div_lt_div_iff_of_pos_right hden]
      linarith

/-- The recurrences `run` obeys on channel `ch` when the drive parameter is 0: the
driven input is 0 whatever the input signal. -/
theorem run_drive_zero_step {α : Type} [Field α] (p : MoogFilter α) (sampleRate : α)
    (inputs outputs : Buffers α) (ch : Fin kNumChannels) (h : p.fDrive = 0) (n : Nat) :
    (run p sampleRate inputs outputs (n + 1)).1.fDelay ch 3 =
      -((blockCoeffs p sampleRate).g * (blockCoeffs p sampleRate).fb) *
        (run p sampleRate inputs outputs n).1.fDelay ch 3 ∧
    (run p sampleRate inputs outputs (n + 1)).1.fDelay ch 2 =
      (run p sampleRate inputs outputs n).1.fDelay ch 3 ∧
    (run p sampleRate inputs outputs (n + 1)).1.fDelay ch 1 =
      (run p sampleRate inputs outputs n).1.fDelay ch 2 ∧
    (run p sampleRate inputs outputs (n + 1)).1.fState ch 0 =
      (blockCoeffs p sampleRate).a0 *
          ((run p sampleRate inputs outputs n).1.fDelay ch 1
            + (blockCoeffs p sampleRate).a1 * (run p sampleRate inputs outputs n).1.fDelay ch 2
            + (blockCoeffs p sampleRate).a2 * (run p sampleRate inputs outputs n).1.fDelay ch 3)
        - (blockCoeffs p sampleRate).b1 * (run p sampleRate inputs outputs n).1.fState ch 0
        - (blockCoeffs p sampleRate).b2 * (run p sampleRate inputs outputs n).1.fState ch 1 ∧
    (run p sampleRate inputs outputs (n + 1)).1.fState ch 1 =
      (run p sampleRate inputs outputs n).1.fState ch 0 ∧
    (run p sampleRate inputs outputs (n + 1)).2 ch n =
      (run p sampleRate inputs outputs (n + 1)).1.fState ch 0 := by
  obtain ⟨-, h1, h2, h3, h4, h5, h6⟩ :=
    runFrame_spec (p.fCutoffFreq / sampleRate) p.fResonance p.fDrive p.fOutputGain inputs n
      (run p sampleRate inputs outputs n) ch
  refine ⟨?_, h2, h1, h4, h5, ?_⟩
  · rw [run_succ, h3, h]
    simp only [blockCoeffs]
    ring
  · rw [run_succ, h6 n, if_pos rfl, h4]

/-- With drive 0, slot 3 of the delay line is a geometric sequence of ratio `-(g*fb)`. -/
theorem run_drive_zero_delay3 {α : Type} [Field α] (p : MoogFilter α) (sampleRate : α)
    (inputs outputs : Buffers α) (ch : Fin kNumChannels) (h : p.fDrive = 0) (n : Nat) :
    (run p sampleRate inputs outputs n).1.fDelay ch 3 =
      (-((blockCoeffs p sampleRate).g * (blockCoeffs p sampleRate).fb)) ^ n * p.fDelay ch 3 := by
  induction n with
  | zero => simp [run_zero]
  | succ n ih =>
    rw [(run_drive_zero_step p sampleRate inputs outputs ch h n).1, ih]
    ring

/-- With drive 0, a normalised cutoff strictly between 0 and 1 and a
feedback loop gain `g*fb` of modulus below 1, the samples `run` writes tend to 0. -/
theorem run_drive_zero_tendsto (p : MoogFilter ℝ) (sampleRate : ℝ)
    (inputs outputs : Buffers ℝ) (ch : Fin kNumChannels) (hdrive : p.fDrive = 0)
    (hc0 : 0 < p.fCutoffFreq / sampleRate) (hc1 : p.fCutoffFreq / sampleRate < 1)
    (hloop : |(blockCoeffs p sampleRate).g * (blockCoeffs p sampleRate).fb| < 1) :
    Tendsto (fun n => (run p sampleRate inputs outputs (n + 1)).2 ch n) atTop (𝓝 0) := by
  have hstep := run_drive_zero_step p sampleRate inputs outputs ch hdrive
  -- the delay line empties
  have hD : Tendsto (fun n => (run p sampleRate inputs outputs n).1.fDelay ch 3) atTop (𝓝 0) := by
    have hq : |(-((blockCoeffs p sampleRate).g * (blockCoeffs p sampleRate).fb))| < 1 := by
      rwa [abs_neg]
    have := (tendsto_pow_atTop_nhds_zero_of_abs_lt_one hq).mul_const (p.fDelay ch 3)
    rw [zero_mul] at this
    refine this.congr (fun n => ?_)
    rw [run_drive_zero_delay3 p sampleRate inputs outputs ch hdrive n]
  have hE : Tendsto (fun n => (run p sampleRate inputs outputs n).1.fDelay ch 2) atTop (𝓝 0) := by
    rw [← tendsto_add_atTop_iff_nat 1]
    exact hD.congr (fun n => ((hstep n).2.1).symm)
  have hF : Tendsto (fun n => (run p sampleRate inputs outputs n).1.fDelay ch 1) atTop (𝓝 0) := by
    rw [← tendsto_add_atTop_iff_nat 1]
    exact hE.congr (fun n => ((hstep n).2.2.1).symm)
  -- the forcing term of the two-pole stage vanishes
  have hv : Tendsto (fun n => (blockCoeffs p sampleRate).a0 *
      ((run p sampleRate inputs outputs n).1.fDelay ch 1
        + (blockCoeffs p sampleRate).a1 * (run p sampleRate inputs outputs n).1.fDelay ch 2
        + (blockCoeffs p sampleRate).a2 * (run p sampleRate inputs outputs n).1.fDelay ch 3))
      atTop (𝓝 0) := by
    have := ((hF.add (hE.const_mul (blockCoeffs p sampleRate).a1)).add
      (hD.const_mul (blockCoeffs p sampleRate).a2)).const_mul (blockCoeffs p sampleRate).a0
    simpa using this
  have hu := (tendsto_add_atTop_iff_nat 1).2 hv
  obtain ⟨hb2, hb1⟩ := coeffs_two_pole_stable (p.fCutoffFreq / sampleRate) p.fResonance
    p.fOutputGain hc0 hc1
  have hS : Tendsto (fun n => (run p sampleRate inputs outputs n).1.fState ch 0) atTop (𝓝 0) := by
    apply tendsto_zero_of_stable_second_order _ _ (blockCoeffs p sampleRate).b1
      (blockCoeffs p sampleRate).b2 hb2 hb1 _ hu
    intro n
    rw [(hstep (n + 1)).2.2.2.1, (hstep n).2.2.2.2.1]
  have hS1 := (tendsto_add_atTop_iff_nat 1).2 hS
  exact hS1.congr (fun n => ((hstep n).2.2.2.2.2).symm)

/-- With drive 0, a feedback loop gain `g*fb` of modulus at least 1 and a nonzero
excitation of the two-pole stage by the delay line, the samples `run` writes do not
tend to 0. -/
theorem run_drive_zero_not_tendsto (p : MoogFilter ℝ) (sampleRate : ℝ)
    (inputs outputs : Buffers ℝ) (ch : Fin kNumChannels) (hdrive : p.fDrive = 0)
    (hloop : 1 ≤ |(blockCoeffs p sampleRate).g * (blockCoeffs p sampleRate).fb|)
    (hK : (blockCoeffs p sampleRate).a0 *
      (1 + (blockCoeffs p sampleRate).a1 *
            (-((blockCoeffs p sampleRate).g * (blockCoeffs p sampleRate).fb))
         + (blockCoeffs p sampleRate).a2 *
            (-((blockCoeffs p sampleRate).g * (blockCoeffs p sampleRate).fb)) ^ 2) *
      p.fDelay ch 3 ≠ 0) :
    ¬ Tendsto (fun n => (run p sampleRate inputs outputs (n + 1)).2 ch n) atTop (𝓝 0) := by
  intro hy
  have hstep := run_drive_zero_step p sampleRate inputs outputs ch hdrive
  have hdel := run_drive_zero_delay3 p sampleRate inputs outputs ch hdrive
  set q : ℝ := -((blockCoeffs p sampleRate).g * (blockCoeffs p sampleRate).fb) with hq
  set K : ℝ := (blockCoeffs p sampleRate).a0 *
      (1 + (blockCoeffs p sampleRate).a1 * q + (blockCoeffs p sampleRate).a2 * q ^ 2) *
      p.fDelay ch 3 with hKdef
  have hS1 : Tendsto (fun n => (run p sampleRate inputs outputs (n + 1)).1.fState ch 0)
      atTop (𝓝 0) := hy.congr (fun n => (hstep n).2.2.2.2.2)
  have hS : Tendsto (fun n => (run p sampleRate inputs outputs n).1.fState ch 0)
      atTop (𝓝 0) := (tendsto_add_atTop_iff_nat 1).1 hS1
  have hS2 := (tendsto_add_atTop_iff_nat 2).2 hS
  have hS3 := (tendsto_add_atTop_iff_nat 3).2 hS
  have hW := (hS3.add (hS2.const_mul (blockCoeffs p sampleRate).b1)).add
    (hS1.const_mul (blockCoeffs p sampleRate).b2)
  simp only [mul_zero, add_zero] at hW
  have hWeq : ∀ n, (run p sampleRate inputs outputs (n + 3)).1.fState ch 0
      + (blockCoeffs p sampleRate).b1 * (run p sampleRate inputs outputs (n + 2)).1.fState ch 0
      + (blockCoeffs p sampleRate).b2 * (run p sampleRate inputs outputs (n + 1)).1.fState ch 0
      = K * q ^ n := by
    intro n
    rw [(hstep (n + 2)).2.2.2.1, (hstep (n + 1)).2.2.2.2.1, (hstep (n + 1)).2.2.1,
      (hstep n).2.1, (hstep (n + 1)).2.1, hdel n, hdel (n + 1), hdel (n + 2)]
    ring
  have hKq : Tendsto (fun n => K * q ^ n) atTop (𝓝 0) := hW.congr hWeq
  have hKpos : 0 < |K| := abs_pos.mpr hK
  rw [Metric.tendsto_atTop] at hKq
  obtain ⟨N, hN⟩ := hKq |K| hKpos
  have h1 := hN N le_rfl
  rw [Real.dist_eq, sub_zero, abs_mul, abs_pow] at h1
  have hq1 : 1 ≤ |q| := by rw [hq, abs_neg]; exact hloop
  have h2 : 1 ≤ |q| ^ N := one_le_pow₀ hq1
  nlinarith

/-- With the setting `lowRate` at sample rate 10000 every sample `run` writes is 1. -/
theorem run_lowRate_constant (inputs outputs : Buffers ℝ) (ch : Fin kNumChannels) (n : Nat) :
    (run (lowRate : MoogFilter ℝ) 10000 inputs outputs (n + 1)).2 ch n = 1 := by
  have hstep := run_drive_zero_step (lowRate : MoogFilter ℝ) 10000 inputs outputs ch rfl
  have hinv : ∀ m, (run (lowRate : MoogFilter ℝ) 10000 inputs outputs m).1.fDelay ch 1 = 0 ∧
      (run (lowRate : MoogFilter ℝ) 10000 inputs outputs m).1.fDelay ch 2 = 0 ∧
      (run (lowRate : MoogFilter ℝ) 10000 inputs outputs m).1.fDelay ch 3 = 0 ∧
      (run (lowRate : MoogFilter ℝ) 10000 inputs outputs m).1.fState ch 0 = 1 ∧
      (run (lowRate : MoogFilter ℝ) 10000 inputs outputs m).1.fState ch 1 = 1 := by
    intro m
    induction m with
    | zero => exact ⟨rfl, rfl, rfl, rfl, rfl⟩
    | succ m ih =>
      obtain ⟨i1, i2, i3, i4, i5⟩ := ih
      obtain ⟨s3, s2, s1, s4, s5, -⟩ := hstep m
      refine ⟨?_, ?_, ?_, ?_, ?_⟩
      · rw [s1, i2]
      · rw [s2, i3]
      · rw [s3, i3, mul_zero]
      · rw [s4, i1, i2, i3, i4, i5]
        norm_num [blockCoeffs, coeffs, lowRate]
      · rw [s5, i4]
  rw [(hstep n).2.2.2.2.2]
  exact (hinv (n + 1)).2.2.2.1

/-- In exact real arithmetic the output need not tend to 0 with drive 0.  Both settings
have drive 0 and every parameter inside its declared range, and the sample rate is
positive.  With `gainLoop` at sample rate 48000 the feedback loop gain is 7, slot 3 of the
delay line is `(-7)^n`, and the output samples of channel 0 do not tend to 0.  With
`lowRate` at sample rate 10000 (below the cutoff) every output sample of channel 0 is 1. -/
theorem drive_zero_diverges_exact :
    ((gainLoop : MoogFilter ℝ).fDrive = 0 ∧
      (20 : ℝ) ≤ (gainLoop : MoogFilter ℝ).fCutoffFreq ∧
      (gainLoop : MoogFilter ℝ).fCutoffFreq ≤ 20000 ∧
      (0 : ℝ) ≤ (gainLoop : MoogFilter ℝ).fResonance ∧
      (gainLoop : MoogFilter ℝ).fResonance ≤ 1 ∧
      (-60 : ℝ) ≤ (gainLoop : MoogFilter ℝ).fOutputGain ∧
      (gainLoop : MoogFilter ℝ).fOutputGain ≤ 12 ∧
      ¬ Tendsto (fun n => (run (gainLoop : MoogFilter ℝ) 48000 silence silence (n + 1)).2 0 n)
        atTop (𝓝 0)) ∧
    ((lowRate : MoogFilter ℝ).fDrive = 0 ∧
      (20 : ℝ) ≤ (lowRate : MoogFilter ℝ).fCutoffFreq ∧
      (lowRate : MoogFilter ℝ).fCutoffFreq ≤ 20000 ∧
      (0 : ℝ) ≤ (lowRate : MoogFilter ℝ).fResonance ∧
      (lowRate : MoogFilter ℝ).fResonance ≤ 1 ∧
      (-60 : ℝ) ≤ (lowRate : MoogFilter ℝ).fOutputGain ∧
      (lowRate : MoogFilter ℝ).fOutputGain ≤ 12 ∧
      ¬ Tendsto (fun n => (run (lowRate : MoogFilter ℝ) 10000 silence silence (n + 1)).2 0 n)
        atTop (𝓝 0)) := by
  refine ⟨⟨rfl, ?_, ?_, ?_, ?_, ?_, ?_, ?_⟩, ⟨rfl, ?_, ?_, ?_, ?_, ?_, ?_, ?_⟩⟩
  · norm_num [gainLoop]
  · norm_num [gainLoop]
  · norm_num [gainLoop]
  · norm_num [gainLoop]
  · norm_num [gainLoop]
  · norm_num [gainLoop]
  · apply run_drive_zero_not_tendsto (gainLoop : MoogFilter ℝ) 48000 silence silence 0 rfl
    · norm_num [blockCoeffs, coeffs, gainLoop]
    · norm_num [blockCoeffs, coeffs, gainLoop]
  · norm_num [lowRate]
  · norm_num [lowRate]
  · norm_num [lowRate]
  · norm_num [lowRate]
  · norm_num [lowRate]
  · norm_num [lowRate]
  · intro h
    have h1 : Tendsto (fun _ : ℕ => (1 : ℝ)) atTop (𝓝 0) :=
      h.congr (fun n => run_lowRate_constant silence silence 0 n)
    have := tendsto_nhds_unique h1 tendsto_const_nhds
    norm_num at this

/-- In exact real arithmetic (the instance `ℝ` of the embedding, every operation of `run`
exact): with drive 0, for every initial channel state, every cutoff in `[20, 20000]`,
resonance in `[0, 1]`, output gain in `[-60, 12]` and every input signal, if moreover the
cutoff is below the sample rate and the feedback loop gain satisfies `|g * fb| < 1`, then
on each channel the output samples `run` writes tend to 0 as the number of processed
frames grows.  The hypotheses keep the three denominators of `run` nonzero.  In binary32
the same hypotheses do not suffice (`nearUnity32`). -/
theorem drive_zero_tendsto_zero_exact (p : MoogFilter ℝ) (sampleRate : ℝ)
    (inputs outputs : Buffers ℝ) (ch : Fin kNumChannels) (hdrive : p.fDrive = 0)
    (hcut : 20 ≤ p.fCutoffFreq ∧ p.fCutoffFreq ≤ 20000)
    (_hres : 0 ≤ p.fResonance ∧ p.fResonance ≤ 1)
    (_hgain : -60 ≤ p.fOutputGain ∧ p.fOutputGain ≤ 12)
    (hrate : p.fCutoffFreq < sampleRate)
    (hloop : |(blockCoeffs p sampleRate).g * (blockCoeffs p sampleRate).fb| < 1) :
    Tendsto (fun n => (run p sampleRate inputs outputs (n + 1)).2 ch n) atTop (𝓝 0) := by
  have hpos : 0 < p.fCutoffFreq := by linarith [hcut.1]
  have hsr : 0 < sampleRate := by linarith
  have hc0 : 0 < p.fCutoffFreq / sampleRate := div_pos hpos hsr
  have hc1 : p.fCutoffFreq / sampleRate < 1 := (div_lt_one hsr).2 hrate
  exact run_drive_zero_tendsto p sampleRate inputs outputs ch hdrive hc0 hc1 hloop

/-- An instance of the convergence in exact real arithmetic: the setting `ringing` (every
delay and state slot 1, end-to-end parameters, drive 0) at sample rate 48000, fed with an
impulse. -/
theorem drive_zero_tendsto_zero_exact_example :
    Tendsto (fun n => (run (ringing : MoogFilter ℝ) 48000 impulse silence (n + 1)).2 1 n)
      atTop (𝓝 0) :=
  drive_zero_tendsto_zero_exact (ringing : MoogFilter ℝ) 48000 impulse silence 1 rfl
    (by norm_num [ringing]) (by norm_num [ringing]) (by norm_num [ringing])
    (by norm_num [ringing]) (by norm_num [blockCoeffs, coeffs, ringing, abs_lt])

end Convergence

section RunLemmas

/-- Two objects with the same parameters and the same state on every channel are equal. -/
theorem eq_of_channels {α : Type} (p q : MoogFilter α) (h1 : p.fCutoffFreq = q.fCutoffFreq)
    (h2 : p.fResonance = q.fResonance) (h3 : p.fDrive = q.fDrive)
    (h4 : p.fOutputGain = q.fOutputGain) (h : ∀ ch, channelOf p ch = channelOf q ch) :
    p = q := by
  have hd : p.fDelay = q.fDelay := by
    funext ch
    exact congrArg ChannelState.delay (h ch)
  have hs : p.fState = q.fState := by
    funext ch
    exact congrArg ChannelState.state (h ch)
  cases p
  cases q
  simp_all

variable {α : Type} [One α] [OfNat α 2] [OfScientific α] [Add α] [Sub α] [Mul α] [Div α]

/-- A call of `run` does not write the parameters. -/
theorem run_params (p : MoogFilter α) (sampleRate : α) (inputs outputs : Buffers α) (n : Nat) :
    (run p sampleRate inputs outputs n).1.fCutoffFreq = p.fCutoffFreq ∧
    (run p sampleRate inputs outputs n).1.fResonance = p.fResonance ∧
    (run p sampleRate inputs outputs n).1.fDrive = p.fDrive ∧
    (run p sampleRate inputs outputs n).1.fOutputGain = p.fOutputGain := by
  induction n with
  | zero => exact ⟨rfl, rfl, rfl, rfl⟩
  | succ n ih =>
    obtain ⟨h1, h2, h3, h4⟩ :=
      runFrame_params (p.fCutoffFreq / sampleRate) p.fResonance p.fDrive p.fOutputGain inputs n
        (run p sampleRate inputs outputs n)
    rw [run_succ]
    exact ⟨h1.trans ih.1, h2.trans ih.2.1, h3.trans ih.2.2.1, h4.trans ih.2.2.2⟩

/-- The output buffers after a call of `run`: the first `n` samples of every channel are
the outputs of the single-channel recurrence on input channel 0, the others are as
before the call. -/
theorem run_outputs (p : MoogFilter α) (sampleRate : α) (inputs outputs : Buffers α)
    (ch : Fin kNumChannels) (n k : Nat) :
    (run p sampleRate inputs outputs n).2 ch k =
      if k < n then specOut (blockCoeffs p sampleRate) p.fDrive (inputs 0) (channelOf p ch) k
      else outputs ch k := by
  by_cases h : k < n
  · rw [if_pos h, run_output_stable p sampleRate inputs outputs ch k n h,
      (run_eq_spec_on_input0 p sampleRate inputs outputs ch k).2]
  · rw [if_neg h]
    induction n with
    | zero => rfl
    | succ n ih =>
      obtain ⟨-, -, -, -, -, -, h6⟩ :=
        runFrame_spec (p.fCutoffFreq / sampleRate) p.fResonance p.fDrive p.fOutputGain inputs n
          (run p sampleRate inputs outputs n) ch
      rw [run_succ, h6 k, if_neg (by omega), ih (by omega)]

/-- The state of channel `ch` after a call of `run`. -/
theorem run_channel (p : MoogFilter α) (sampleRate : α) (inputs outputs : Buffers α)
    (ch : Fin kNumChannels) (n : Nat) :
    channelOf (run p sampleRate inputs outputs n).1 ch =
      specState (blockCoeffs p sampleRate) p.fDrive (inputs 0) (channelOf p ch) n :=
  (run_eq_spec_on_input0 p sampleRate inputs outputs ch n).1

end RunLemmas

section SpecLemmas

variable {α : Type} [Add α] [Sub α] [Mul α]

/-- The components of one step of the single-channel recurrence. -/
theorem specStep_spec (c : Coeffs α) (inp : α) (s : ChannelState α) :
    (specStep c inp s).1.delay 0 = s.delay 1 ∧ (specStep c inp s).1.delay 1 = s.delay 2 ∧
    (specStep c inp s).1.delay 2 = s.delay 3 ∧
    (specStep c inp s).1.delay 3 = c.g * (inp - c.fb * s.delay 3) ∧
    (specStep c inp s).1.state 0 =
      c.a0 * (s.delay 1 + c.a1 * s.delay 2 + c.a2 * s.delay 3)
        - c.b1 * s.state 0 - c.b2 * s.state 1 ∧
    (specStep c inp s).1.state 1 = s.state 0 ∧
    (specStep c inp s).2 =
      c.a0 * (s.delay 1 + c.a1 * s.delay 2 + c.a2 * s.delay 3)
        - c.b1 * s.state 0 - c.b2 * s.state 1 := by
  simp [specStep]

/-- The output sample of a step does not depend on the input sample of that step. -/
theorem specStep_out_indep (c : Coeffs α) (inp inp2 : α) (s : ChannelState α) :
    (specStep c inp s).2 = (specStep c inp2 s).2 := by
  rw [(specStep_spec c inp s).2.2.2.2.2.2, (specStep_spec c inp2 s).2.2.2.2.2.2]

/-- The channel state after `n` frames depends only on the first `n` input samples. -/
theorem specState_congr (c : Coeffs α) (drive : α) (x x2 : Nat → α) (s : ChannelState α)
    (n : Nat) (h : ∀ j, j < n → x j = x2 j) :
    specState c drive x s n = specState c drive x2 s n := by
  induction n with
  | zero => rfl
  | succ n ih =>
    simp only [specState]
    rw [ih (fun j hj => h j (by omega)), h n (by omega)]

/-- Output sample `n` depends only on the input samples before `n`. -/
theorem specOut_congr (c : Coeffs α) (drive : α) (x x2 : Nat → α) (s : ChannelState α)
    (n : Nat) (h : ∀ j, j < n → x j = x2 j) :
    specOut c drive x s n = specOut c drive x2 s n := by
  simp only [specOut]
  rw [specState_congr c drive x x2 s n h]
  exact specStep_out_indep c _ _ _

/-- Running the recurrence on a concatenated signal is running it on the first part and
then, from the state reached, on the second part. -/
theorem specState_append (c : Coeffs α) (drive : α) (x y z : Nat → α) (s : ChannelState α)
    (N m : Nat) (hx : ∀ i, i < N → z i = x i) (hy : ∀ i, z (N + i) = y i) :
    specState c drive z s (N + m) = specState c drive y (specState c drive x s N) m := by
  induction m with
  | zero => exact specState_congr c drive z x s N hx
  | succ m ih =>
    have e : N + (m + 1) = (N + m) + 1 := by omega
    rw [e]
    simp only [specState]
    rw [ih, hy m]

theorem specOut_append (c : Coeffs α) (drive : α) (x y z : Nat → α) (s : ChannelState α)
    (N m : Nat) (hx : ∀ i, i < N → z i = x i) (hy : ∀ i, z (N + i) = y i) :
    specOut c drive z s (N + m) = specOut c drive y (specState c drive x s N) m := by
  simp only [specOut]
  rw [specState_append c drive x y z s N m hx hy, hy m]

end SpecLemmas

section SpecFieldLemmas

variable {α : Type} [Field α]

/-- The recurrence is linear: from the zero state, the state and output for the signal
`a*x + b*y` are the same combination of those for `x` and for `y`. -/
theorem specState_linear (c : Coeffs α) (drive a b : α) (x y : Nat → α) (s : ChannelState α)
    (hd : ∀ j, s.delay j = 0) (hs : ∀ j, s.state j = 0) (n : Nat) :
    (∀ j, (specState c drive (fun i => a * x i + b * y i) s n).delay j =
      a * (specState c drive x s n).delay j + b * (specState c drive y s n).delay j) ∧
    (∀ j, (specState c drive (fun i => a * x i + b * y i) s n).state j =
      a * (specState c drive x s n).state j + b * (specState c drive y s n).state j) := by
  induction n with
  | zero =>
    constructor
    · intro j
      simp [specState, hd j]
    · intro j
      simp [specState, hs j]
  | succ n ih =>
    obtain ⟨ihd, ihs⟩ := ih
    constructor
    · intro j
      simp only [specState]
      fin_cases j
      · simp only [Fin.zero_eta, (specStep_spec c _ _).1]
        exact ihd 1
      · simp only [Fin.mk_one, (specStep_spec c _ _).2.1]
        exact ihd 2
      · have e : (⟨2, by omega⟩ : Fin 4) = 2 := rfl
        simp only [e, (specStep_spec c _ _).2.2.1]
        exact ihd 3
      · have e : (⟨3, by omega⟩ : Fin 4) = 3 := rfl
        simp only [e, (specStep_spec c _ _).2.2.2.1, ihd 3]
        ring
    · intro j
      simp only [specState]
      fin_cases j
      · simp only [Fin.zero_eta, (specStep_spec c _ _).2.2.2.2.1, ihd 1, ihd 2, ihd 3, ihs 0,
          ihs 1]
        ring
      · simp only [Fin.mk_one, (specStep_spec c _ _).2.2.2.2.2.1]
        exact ihs 0

theorem specOut_linear (c : Coeffs α) (drive a b : α) (x y : Nat → α) (s : ChannelState α)
    (hd : ∀ j, s.delay j = 0) (hs : ∀ j, s.state j = 0) (n : Nat) :
    specOut c drive (fun i => a * x i + b * y i) s n =
      a * specOut c drive x s n + b * specOut c drive y s n := by
  obtain ⟨ihd, ihs⟩ := specState_linear c drive a b x y s hd hs n
  simp only [specOut, (specStep_spec c _ _).2.2.2.2.2.2, ihd 1, ihd 2, ihd 3, ihs 0, ihs 1]
  ring

/-- Scaling the signal by `d` and driving by 1 is driving the signal by `d`. -/
theorem specState_drive (c : Coeffs α) (d : α) (x : Nat → α) (s : ChannelState α) (n : Nat) :
    specState c d x s n = specState c 1 (fun i => d * x i) s n := by
  induction n with
  | zero => rfl
  | succ n ih =>
    simp only [specState]
    rw [ih, mul_one, mul_comm]

end SpecFieldLemmas

section ZeroLemmas

/-- Two channel states with the same six slots are equal. -/
theorem eq_of_slots {α : Type} (a b : ChannelState α) (h : slots a = slots b) : a = b := by
  simp only [slots, List.cons.injEq, and_true] at h
  obtain ⟨h0, h1, h2, h3, h4, h5⟩ := h
  have hd : a.delay = b.delay := by
    funext j
    fin_cases j
    · exact h0
    · exact h1
    · exact h2
    · exact h3
  have hs : a.state = b.state := by
    funext j
    fin_cases j
    · exact h4
    · exact h5
  cases a
  cases b
  simp_all

variable {α : Type} [Zero α] [Add α] [Sub α] [Mul α]

/-- From a state whose delay slots and feedback state are zero, the output sample of the
next step is 0, provided the two-pole coefficients are finite. -/
theorem specStep_out_zero (c : Coeffs α) (inp : α) (s : ChannelState α)
    (hz : ZeroArith α) (hc : FiniteTwoPole c)
    (hd : ∀ j, s.delay j = 0) (hs : ∀ j, s.state j = 0) : (specStep c inp s).2 = 0 := by
  obtain ⟨hadd, hsub⟩ := hz
  obtain ⟨h0, h1, h2, h3, h4⟩ := hc
  have e0 : c.a0 * 0 = 0 := h0
  have e1 : c.a1 * 0 = 0 := h1
  have e2 : c.a2 * 0 = 0 := h2
  have e3 : c.b1 * 0 = 0 := h3
  have e4 : c.b2 * 0 = 0 := h4
  rw [(specStep_spec c inp s).2.2.2.2.2.2, hd 1, hd 2, hd 3, hs 0, hs 1, e1, e2, hadd, hadd, e0,
    e3, e4, hsub, hsub]

/-- With a zero driven input and finite coefficients the zero state is a fixed point of
the recurrence. -/
theorem specState_zero (c : Coeffs α) (drive : α) (x : Nat → α) (s : ChannelState α)
    (hz : ZeroArith α) (hc : FiniteCoeffs c) (hin : ∀ i, x i * drive = 0)
    (hd : ∀ j, s.delay j = 0) (hs : ∀ j, s.state j = 0) (n : Nat) :
    (∀ j, (specState c drive x s n).delay j = 0) ∧
      (∀ j, (specState c drive x s n).state j = 0) := by
  induction n with
  | zero => exact ⟨hd, hs⟩
  | succ n ih =>
    obtain ⟨ihd, ihs⟩ := ih
    obtain ⟨hfb, hg, htwo⟩ := hc
    have efb : c.fb * 0 = 0 := hfb
    have eg : c.g * 0 = 0 := hg
    constructor
    · intro j
      simp only [specState]
      fin_cases j
      · simp only [Fin.zero_eta, (specStep_spec c _ _).1]
        exact ihd 1
      · simp only [Fin.mk_one, (specStep_spec c _ _).2.1]
        exact ihd 2
      · have e : (⟨2, by omega⟩ : Fin 4) = 2 := rfl
        simp only [e, (specStep_spec c _ _).2.2.1]
        exact ihd 3
      · have e : (⟨3, by omega⟩ : Fin 4) = 3 := rfl
        simp only [e, (specStep_spec c _ _).2.2.2.1, ihd 3, hin n, efb, hz.2, eg]
    · intro j
      simp only [specState]
      fin_cases j
      · have e := specStep_out_zero c (x n * drive) (specState c drive x s n) hz htwo ihd ihs
        rw [(specStep_spec c _ _).2.2.2.2.2.2] at e
        simp only [Fin.zero_eta, (specStep_spec c _ _).2.2.2.2.1]
        exact e
      · simp only [Fin.mk_one, (specStep_spec c _ _).2.2.2.2.2.1]
        exact ihs 0

end ZeroLemmas

section ShiftLemmas

variable {α : Type} [Add α] [Sub α] [Mul α]

/-- Running `n + m` frames is running `n` frames and then `m` frames on the rest of the
signal. -/
theorem specState_add (c : Coeffs α) (drive : α) (x : Nat → α) (s : ChannelState α)
    (n m : Nat) :
    specState c drive x s (n + m) =
      specState c drive (fun i => x (n + i)) (specState c drive x s n) m :=
  specState_append c drive x (fun i => x (n + i)) x s n m (fun _ _ => rfl) (fun _ => rfl)

/-- A channel state that recurs after `period` frames of a constant signal recurs
forever. -/
theorem specState_periodic (c : Coeffs α) (drive v : α) (s : ChannelState α) (period : Nat)
    (h : specState c drive (fun _ => v) s period = s) (k : Nat) :
    specState c drive (fun _ => v) s (period * k) = s := by
  induction k with
  | zero => rfl
  | succ k ih =>
    have e : period * (k + 1) = period * k + period := by ring
    rw [e, specState_add, ih]
    exact h

end ShiftLemmas

section DriveLemmas

variable {α : Type} [One α] [Add α] [Sub α] [Mul α]

/-- Drive `d` on the signal `x` and drive 1 on the signal `d * x` give the same channel
states, when the products `x i * d` commute and multiplying by 1 changes nothing. -/
theorem specState_drive_one (c : Coeffs α) (d : α) (x : Nat → α) (s : ChannelState α)
    (hcomm : ∀ i, x i * d = d * x i) (hone : ∀ i, d * x i * 1 = d * x i) (n : Nat) :
    specState c d x s n = specState c 1 (fun i => d * x i) s n := by
  induction n with
  | zero => rfl
  | succ n ih =>
    simp only [specState]
    rw [ih, hone n, hcomm n]

end DriveLemmas

section ScaleLemmas

variable {α : Type} [Zero α] [One α] [Add α] [Sub α] [Mul α]

/-- Without feedback, gain `G` on the driven signal and gain 1 on the signal
`G * (x i * drive)` with drive 1 give the same channel states. -/
theorem specState_gain_one (c c1 : Coeffs α) (G drive : α) (x : Nat → α) (s : ChannelState α)
    (hfb : c.fb = 0) (hfb1 : c1.fb = 0) (hg : c.g = G) (hg1 : c1.g = 1)
    (ha0 : c1.a0 = c.a0) (ha1 : c1.a1 = c.a1) (ha2 : c1.a2 = c.a2) (hb1 : c1.b1 = c.b1)
    (hb2 : c1.b2 = c.b2) (hs : 0 * s.delay 3 = 0)
    (hx : ∀ i, x i * drive - 0 = x i * drive)
    (hw : ∀ i, ExactValue (G * (x i * drive))) (n : Nat) :
    specState c1 1 (fun i => G * (x i * drive)) s n = specState c drive x s n ∧
      0 * (specState c drive x s n).delay 3 = 0 := by
  induction n with
  | zero => exact ⟨rfl, hs⟩
  | succ n ih =>
    obtain ⟨ih1, ih2⟩ := ih
    obtain ⟨w0, wsub, wone, w1⟩ := hw n
    have e3 : (specState c drive x s (n + 1)).delay 3 = G * (x n * drive) := by
      simp only [specState]
      rw [(specStep_spec c _ _).2.2.2.1, hfb, ih2, hx n, hg]
    constructor
    · apply eq_of_slots
      simp only [specState, slots, ih1]
      simp only [(specStep_spec _ _ _).1, (specStep_spec _ _ _).2.1,
        (specStep_spec _ _ _).2.2.1, (specStep_spec _ _ _).2.2.2.1,
        (specStep_spec _ _ _).2.2.2.2.1, (specStep_spec _ _ _).2.2.2.2.2.1,
        hfb, hfb1, hg, hg1, ha0, ha1, ha2, hb1, hb2, ih2, hx n, wone, wsub, w1]
    · rw [e3]
      exact w0

end ScaleLemmas

section ObjectLemmas
variable {α : Type} [Zero α] [One α] [OfNat α 1000] [OfScientific α]

/-- The object the constructor leaves: the four parameter values and zero in every delay
and state slot, whatever the members held before. -/
theorem construct_spec (u : MoogFilter α) :
    (construct u).fCutoffFreq = 1000 ∧ (construct u).fResonance = 0.1 ∧
    (construct u).fDrive = 0 ∧ (construct u).fOutputGain = 1 ∧
    (∀ ch j, (construct u).fDelay ch j = 0) ∧ (∀ ch j, (construct u).fState ch j = 0) := by
  have e3 : (Fin.succ 2 : Fin 4) = 3 := rfl
  refine ⟨?_, ?_, ?_, ?_, ?_, ?_⟩
  · simp [construct, Fin.foldl_succ, Fin.foldl_zero]
  · simp [construct, Fin.foldl_succ, Fin.foldl_zero]
  · simp [construct, Fin.foldl_succ, Fin.foldl_zero]
  · simp [construct, Fin.foldl_succ, Fin.foldl_zero]
  · intro ch j
    fin_cases ch <;> fin_cases j <;>
      simp [construct, Fin.foldl_succ, Fin.foldl_zero, write_apply, e3]
  · intro ch j
    fin_cases ch <;> fin_cases j <;>
      simp [construct, Fin.foldl_succ, Fin.foldl_zero, write_apply, e3]

end ObjectLemmas

section ChannelMajorLemmas

variable {α : Type} [Add α] [Sub α] [Mul α]

/-- The channel-loop body acts on its own channel as one step of the single-channel
recurrence and leaves the other channel and the parameters as they were. -/
theorem runChannel_eq_specStep (c : Coeffs α) (inp : α) (i : Nat)
    (st : MoogFilter α × Buffers α) (ch c2 : Fin kNumChannels) :
    channelOf (runChannel c.fb c.g c.a0 c.a1 c.a2 c.b1 c.b2 inp i st ch).1 c2 =
      if c2 = ch then (specStep c inp (channelOf st.1 ch)).1 else channelOf st.1 c2 := by
  obtain ⟨-, -, -, -, hd, hs, -⟩ :=
    runChannel_spec c.fb c.g c.a0 c.a1 c.a2 c.b1 c.b2 inp i st ch
  have e : ∀ a b : ChannelState α, a.delay = b.delay → a.state = b.state → a = b := by
    intro a b h1 h2
    cases a
    cases b
    simp_all
  by_cases h : c2 = ch
  · subst h
    rw [if_pos rfl]
    apply e
    · funext j
      have := hd c2 j
      fin_cases j <;> simp_all [channelOf, specStep]
    · funext j
      have := hs c2 j
      fin_cases j <;> simp_all [channelOf, specStep]
  · rw [if_neg h]
    apply e
    · funext j
      have := hd c2 j
      simp_all [channelOf]
    · funext j
      have := hs c2 j
      simp_all [channelOf]

/-- What the frame loop with the channel fixed does: the parameters and the other
channel are untouched, channel `ch` is advanced by `n` steps of the single-channel
recurrence on input channel 0, and its first `n` output samples are written. -/
theorem runChannelFrames_spec (c : Coeffs α) (drive : α) (inputs : Buffers α) (n : Nat)
    (st : MoogFilter α × Buffers α) (ch : Fin kNumChannels) :
    ((runChannelFrames c drive inputs n st ch).1.fCutoffFreq = st.1.fCutoffFreq ∧
      (runChannelFrames c drive inputs n st ch).1.fResonance = st.1.fResonance ∧
      (runChannelFrames c drive inputs n st ch).1.fDrive = st.1.fDrive ∧
      (runChannelFrames c drive inputs n st ch).1.fOutputGain = st.1.fOutputGain) ∧
    (∀ c2, channelOf (runChannelFrames c drive inputs n st ch).1 c2 =
      if c2 = ch then specState c drive (inputs 0) (channelOf st.1 ch) n
      else channelOf st.1 c2) ∧
    (∀ c2 k, (runChannelFrames c drive inputs n st ch).2 c2 k =
      if c2 = ch ∧ k < n then specOut c drive (inputs 0) (channelOf st.1 ch) k
      else st.2 c2 k) := by
  induction n with
  | zero =>
    refine ⟨⟨rfl, rfl, rfl, rfl⟩, ?_, ?_⟩
    · intro c2
      by_cases h : c2 = ch
      · rw [if_pos h, h]
        rfl
      · rw [if_neg h]
        rfl
    · intro c2 k
      simp [runChannelFrames, forLoop]
  | succ n ih =>
    obtain ⟨⟨i1, i2, i3, i4⟩, ich, iout⟩ := ih
    have hstep : runChannelFrames c drive inputs (n + 1) st ch =
        runChannel c.fb c.g c.a0 c.a1 c.a2 c.b1 c.b2 (inputs 0 n * drive) n
          (runChannelFrames c drive inputs n st ch) ch := rfl
    obtain ⟨p1, p2, p3, p4, -, -, hout⟩ :=
      runChannel_spec c.fb c.g c.a0 c.a1 c.a2 c.b1 c.b2 (inputs 0 n * drive) n
        (runChannelFrames c drive inputs n st ch) ch
    have hch := runChannel_eq_specStep c (inputs 0 n * drive) n
      (runChannelFrames c drive inputs n st ch) ch
    rw [hstep]
    refine ⟨⟨p1.trans i1, p2.trans i2, p3.trans i3, p4.trans i4⟩, ?_, ?_⟩
    · intro c2
      rw [hch c2]
      by_cases h : c2 = ch
      · rw [if_pos h, if_pos h, ich ch, if_pos rfl]
        rfl
      · rw [if_neg h, if_neg h, ich c2, if_neg h]
    · intro c2 k
      rw [hout c2 k]
      by_cases h : c2 = ch ∧ k = n
      · obtain ⟨h1, h2⟩ := h
        subst h1 h2
        rw [if_pos ⟨rfl, rfl⟩, if_pos ⟨rfl, Nat.lt_succ_self _⟩]
        have e := ich c2
        rw [if_pos rfl] at e
        simp only [specOut, (specStep_spec c _ _).2.2.2.2.2.2, ← e]
        rfl
      · rw [if_neg h, iout c2 k]
        by_cases h2 : c2 = ch ∧ k < n
        · rw [if_pos h2, if_pos ⟨h2.1, by omega⟩]
        · rw [if_neg h2, if_neg]
          intro h3
          rcases Nat.lt_succ_iff_lt_or_eq.mp h3.2 with h4 | h4
          · exact h2 ⟨h3.1, h4⟩
          · exact h ⟨h3.1, h4⟩

end ChannelMajorLemmas

section InterchangeLemmas

variable {α : Type} [One α] [OfNat α 2] [OfScientific α] [Add α] [Sub α] [Mul α] [Div α]

/-- Processing two distinct channels one after the other, each over all frames, gives
the result of `run`. -/
theorem runChannelMajor_pair (a b : Fin kNumChannels) (hab : a ≠ b) (p : MoogFilter α)
    (sampleRate : α) (inputs outputs : Buffers α) (n : Nat) :
    run p sampleRate inputs outputs n = runChannelMajor [a, b] p sampleRate inputs outputs n := by
  have hfold : runChannelMajor [a, b] p sampleRate inputs outputs n =
      runChannelFrames (blockCoeffs p sampleRate) p.fDrive inputs n
        (runChannelFrames (blockCoeffs p sampleRate) p.fDrive inputs n (p, outputs) a) b := rfl
  obtain ⟨⟨a1, a2, a3, a4⟩, ach, aout⟩ :=
    runChannelFrames_spec (blockCoeffs p sampleRate) p.fDrive inputs n (p, outputs) a
  obtain ⟨⟨b1, b2, b3, b4⟩, bch, bout⟩ :=
    runChannelFrames_spec (blockCoeffs p sampleRate) p.fDrive inputs n
      (runChannelFrames (blockCoeffs p sampleRate) p.fDrive inputs n (p, outputs) a) b
  obtain ⟨r1, r2, r3, r4⟩ := run_params p sampleRate inputs outputs n
  have hcases : ∀ ch : Fin kNumChannels, ch = a ∨ ch = b := by
    intro ch
    fin_cases ch <;> fin_cases a <;> fin_cases b <;> simp_all
  rw [hfold]
  apply Prod.ext
  · apply eq_of_channels
    · rw [r1, b1, a1]
    · rw [r2, b2, a2]
    · rw [r3, b3, a3]
    · rw [r4, b4, a4]
    · intro ch
      rw [run_channel, bch ch]
      by_cases h : ch = b
      · rw [if_pos h, ach b, if_neg (Ne.symm hab), h]
      · rw [if_neg h, ach ch]
        rcases hcases ch with h2 | h2
        · rw [if_pos h2, h2]
        · exact absurd h2 h
  · funext ch k
    have hb : channelOf (runChannelFrames (blockCoeffs p sampleRate) p.fDrive inputs n
        (p, outputs) a).1 b = channelOf p b := by
      rw [ach b, if_neg (Ne.symm hab)]
    rw [run_outputs, bout ch k, aout ch k, hb]
    rcases hcases ch with h2 | h2
    · subst h2
      by_cases hk : k < n
      · simp [hk, hab]
      · simp [hk]
    · subst h2
      by_cases hk : k < n
      · simp [hk]
      · simp [hk]

end InterchangeLemmas

section GainLemmas

variable {α : Type} [Field α]

/-- With zero feedback coefficient the recurrence scales with the output scale `g`:
if two coefficient sets differ only in `g`, by the factor `k`, the states and outputs
from the zero state differ by the factor `k`. -/
theorem specState_gain_scale (c c2 : Coeffs α) (k drive : α) (x : Nat → α)
    (s : ChannelState α) (hfb : c.fb = 0) (hfb2 : c2.fb = 0) (hg : c2.g = k * c.g)
    (ha0 : c2.a0 = c.a0) (ha1 : c2.a1 = c.a1) (ha2 : c2.a2 = c.a2) (hb1 : c2.b1 = c.b1)
    (hb2 : c2.b2 = c.b2) (hd : ∀ j, s.delay j = 0) (hs : ∀ j, s.state j = 0) (n : Nat) :
    (∀ j, (specState c2 drive x s n).delay j = k * (specState c drive x s n).delay j) ∧
    (∀ j, (specState c2 drive x s n).state j = k * (specState c drive x s n).state j) := by
  induction n with
  | zero =>
    constructor
    · intro j
      simp [specState, hd j]
    · intro j
      simp [specState, hs j]
  | succ n ih =>
    obtain ⟨ihd, ihs⟩ := ih
    constructor
    · intro j
      simp only [specState]
      fin_cases j
      · simp only [Fin.zero_eta, (specStep_spec _ _ _).1]
        exact ihd 1
      · simp only [Fin.mk_one, (specStep_spec _ _ _).2.1]
        exact ihd 2
      · have e : (⟨2, by omega⟩ : Fin 4) = 2 := rfl
        simp only [e, (specStep_spec _ _ _).2.2.1]
        exact ihd 3
      · have e : (⟨3, by omega⟩ : Fin 4) = 3 := rfl
        simp only [e, (specStep_spec _ _ _).2.2.2.1, hfb, hfb2, hg]
        ring
    · intro j
      simp only [specState]
      fin_cases j
      · simp only [Fin.zero_eta, (specStep_spec _ _ _).2.2.2.2.1, ihd 1, ihd 2, ihd 3, ihs 0,
          ihs 1, ha0, ha1, ha2, hb1, hb2]
        ring
      · simp only [Fin.mk_one, (specStep_spec _ _ _).2.2.2.2.2.1]
        exact ihs 0

end GainLemmas

section LaterClaims

/-- C11, the code on an invalid index: for every `index >= 4` no `case` of the `switch`
in `getParameterValue` matches and there is no `default`, so control reaches the end
of the function without a `return`: the call yields no value at all, neither an error
nor a sentinel. -/
theorem getParameterValue_invalid {α : Type} (p : MoogFilter α) (index : Nat)
    (h : kNumParams ≤ index) : getParameterValue p index = none := by
  have h4 : 4 ≤ index := h
  have e0 : index ≠ 0 := by omega
  have e1 : index ≠ 1 := by omega
  have e2 : index ≠ 2 := by omega
  have e3 : index ≠ 3 := by omega
  simp [getParameterValue, e0, e1, e2, e3]

/-- C11 witness: index 4 (the enumerator `kNumParams`) on the end-to-end object. -/
theorem getParameterValue_invalid_witness :
    kNumParams ≤ 4 ∧ getParameterValue endToEnd 4 = none :=
  ⟨by decide, getParameterValue_invalid endToEnd 4 (by decide)⟩

/-- C14: `activate`, `deactivate` and `sampleRateChanged` return the object unchanged
(every parameter value, every delay and state slot), and `setParameterValue(i, v)`
leaves every delay and state slot of both channels and every parameter other than `i`
unchanged. -/
theorem only_run_writes_state {α : Type} (p : MoogFilter α) (i : Nat) (v newRate : α) :
    activate p = p ∧ deactivate p = p ∧ sampleRateChanged p newRate = p ∧
    (setParameterValue p i v).fDelay = p.fDelay ∧
    (setParameterValue p i v).fState = p.fState ∧
    ∀ j, j ≠ i → getParameterValue (setParameterValue p i v) j = getParameterValue p j := by
  refine ⟨rfl, rfl, rfl, ?_, ?_, ?_⟩
  · unfold setParameterValue
    split_ifs <;> rfl
  · unfold setParameterValue
    split_ifs <;> rfl
  · intro j hj
    unfold setParameterValue getParameterValue
    split_ifs <;> first | rfl | omega

variable {α : Type} [Zero α] [One α] [OfNat α 1000] [OfScientific α]

/-- C12: in the object the constructor leaves, whatever its members held before, all
four delay slots and both feedback-state slots of every channel are exactly 0. -/
theorem construct_state_zero (u : MoogFilter α) (ch : Fin kNumChannels) :
    (∀ j, (construct u).fDelay ch j = 0) ∧ (∀ j, (construct u).fState ch j = 0) :=
  ⟨fun j => (construct_spec u).2.2.2.2.1 ch j, fun j => (construct_spec u).2.2.2.2.2 ch j⟩

/-- C13, the code after construction: the values the constructor gives to Cutoff,
Resonance and Drive are the defaults `initParameter` declares, and all four values lie
in their declared ranges, but `getParameterValue(kOutputGain)` is 1 while
`initParameter` declares `ranges.def = 0` for Output Gain. -/
theorem construct_outputGain_not_default (u : MoogFilter ℚ) (hintA hintL : Nat)
    (prm : Parameter ℚ) :
    getParameterValue (construct u) kCutoffFreq =
      some (initParameter hintA hintL kCutoffFreq prm).ranges.defaultValue ∧
    getParameterValue (construct u) kResonance =
      some (initParameter hintA hintL kResonance prm).ranges.defaultValue ∧
    getParameterValue (construct u) kDrive =
      some (initParameter hintA hintL kDrive prm).ranges.defaultValue ∧
    getParameterValue (construct u) kOutputGain = some 1 ∧
    (initParameter hintA hintL kOutputGain prm).ranges.defaultValue = 0 ∧
    getParameterValue (construct u) kOutputGain ≠
      some (initParameter hintA hintL kOutputGain prm).ranges.defaultValue ∧
    ((initParameter hintA hintL kCutoffFreq prm).ranges.min ≤ (construct u).fCutoffFreq ∧
      (construct u).fCutoffFreq ≤ (initParameter hintA hintL kCutoffFreq prm).ranges.max) ∧
    ((initParameter hintA hintL kResonance prm).ranges.min ≤ (construct u).fResonance ∧
      (construct u).fResonance ≤ (initParameter hintA hintL kResonance prm).ranges.max) ∧
    ((initParameter hintA hintL kDrive prm).ranges.min ≤ (construct u).fDrive ∧
      (construct u).fDrive ≤ (initParameter hintA hintL kDrive prm).ranges.max) ∧
    ((initParameter hintA hintL kOutputGain prm).ranges.min ≤ (construct u).fOutputGain ∧
      (construct u).fOutputGain ≤ (initParameter hintA hintL kOutputGain prm).ranges.max) := by
  obtain ⟨h1, h2, h3, h4, -, -⟩ := construct_spec u
  have r0 : (initParameter hintA hintL kCutoffFreq prm).ranges =
      { defaultValue := 1000, min := 20, max := 20000 } := rfl
  have r1 : (initParameter hintA hintL kResonance prm).ranges =
      { defaultValue := 0.1, min := 0, max := 1 } := rfl
  have r2 : (initParameter hintA hintL kDrive prm).ranges =
      { defaultValue := 0, min := 0, max := 1 } := rfl
  have r3 : (initParameter hintA hintL kOutputGain prm).ranges =
      { defaultValue := 0, min := -60, max := 12 } := rfl
  have g0 : getParameterValue (construct u) kCutoffFreq = some (construct u).fCutoffFreq := rfl
  have g1 : getParameterValue (construct u) kResonance = some (construct u).fResonance := rfl
  have g2 : getParameterValue (construct u) kDrive = some (construct u).fDrive := rfl
  have g3 : getParameterValue (construct u) kOutputGain = some (construct u).fOutputGain := rfl
  rw [r0, r1, r2, r3, g0, g1, g2, g3, h1, h2, h3, h4]
  norm_num

end LaterClaims

section StructureClaims

variable {α : Type} [One α] [OfNat α 2] [OfScientific α] [Add α] [Sub α] [Mul α] [Div α]

/-- C15: `run`, which iterates frames in the outer loop and channels in the inner loop,
gives the same output buffers and the same final object as processing all frames of
channel 0 and then all frames of channel 1, and as processing the channels in the
opposite order, with the same block coefficients and driven input samples. -/
theorem run_eq_channel_major (p : MoogFilter α) (sampleRate : α) (inputs outputs : Buffers α)
    (n : Nat) :
    run p sampleRate inputs outputs n = runChannelMajor [0, 1] p sampleRate inputs outputs n ∧
    run p sampleRate inputs outputs n = runChannelMajor [1, 0] p sampleRate inputs outputs n :=
  ⟨runChannelMajor_pair 0 1 (by decide) p sampleRate inputs outputs n,
    runChannelMajor_pair 1 0 (by decide) p sampleRate inputs outputs n⟩

/-- C16: calling `run` on a block `xs` of `N` frames and then, on the object it leaves,
on a block `ys` of `M` frames gives the same final object as one call on the
`N + M` frames of the concatenation, and the outputs of the two calls are the first `N`
and the next `M` output samples of that single call; a call with zero frames returns
the object and the output buffers unchanged. -/
theorem run_blocks_compose (p : MoogFilter α) (sampleRate : α) (xs ys o1 o2 o : Buffers α)
    (N M : Nat) :
    (run (run p sampleRate xs o1 N).1 sampleRate ys o2 M).1 =
      (run p sampleRate (concatBlocks N xs ys) o (N + M)).1 ∧
    (∀ ch k, k < N → (run p sampleRate xs o1 N).2 ch k =
      (run p sampleRate (concatBlocks N xs ys) o (N + M)).2 ch k) ∧
    (∀ ch k, k < M → (run (run p sampleRate xs o1 N).1 sampleRate ys o2 M).2 ch k =
      (run p sampleRate (concatBlocks N xs ys) o (N + M)).2 ch (N + k)) ∧
    run p sampleRate xs o1 0 = (p, o1) := by
  obtain ⟨q1, q2, q3, q4⟩ := run_params p sampleRate xs o1 N
  have hc : blockCoeffs (run p sampleRate xs o1 N).1 sampleRate = blockCoeffs p sampleRate := by
    simp only [blockCoeffs, q1, q2, q4]
  have hx : ∀ i, i < N → concatBlocks N xs ys 0 i = xs 0 i := by
    intro i hi
    simp [concatBlocks, hi]
  have hy : ∀ i, concatBlocks N xs ys 0 (N + i) = ys 0 i := by
    intro i
    simp [concatBlocks]
  refine ⟨?_, ?_, ?_, rfl⟩
  · obtain ⟨s1, s2, s3, s4⟩ := run_params (run p sampleRate xs o1 N).1 sampleRate ys o2 M
    obtain ⟨w1, w2, w3, w4⟩ := run_params p sampleRate (concatBlocks N xs ys) o (N + M)
    apply eq_of_channels
    · rw [s1, q1, w1]
    · rw [s2, q2, w2]
    · rw [s3, q3, w3]
    · rw [s4, q4, w4]
    · intro ch
      rw [run_channel, run_channel, run_channel, hc, q3]
      exact (specState_append _ _ _ _ _ _ N M hx hy).symm
  · intro ch k hk
    rw [run_outputs, run_outputs, if_pos hk, if_pos (by omega)]
    exact specOut_congr _ _ _ _ _ k (fun j hj => (hx j (by omega)).symm)
  · intro ch k hk
    rw [run_outputs, run_outputs, if_pos hk, if_pos (by omega), run_channel, hc, q3]
    exact (specOut_append _ _ _ _ _ _ N k hx hy).symm

end StructureClaims

section ExactLemmas

variable {α : Type} [Field α]

/-- In exact arithmetic, in the end-to-end setting (resonance 0.1, zero state, impulse
input) doubling the output gain from 1 to 2 does not double output sample 2 of
channel 0. -/
theorem gain_doubling_exact :
    (run endToEnd 48000 impulse silence 3).2 0 2 =
      -1063987147465989488640000000000000000 / 21535854423498203329871328704853952573 ∧
    (run { endToEnd with fOutputGain := 2 * endToEnd.fOutputGain } 48000 impulse silence 3).2 0 2 =
      -7770646410493121003520000000000000000 / 21535854423498203329871328704853952573 ∧
    (run { endToEnd with fOutputGain := 2 * endToEnd.fOutputGain } 48000 impulse silence 3).2 0 2
      ≠ 2 * (run endToEnd 48000 impulse silence 3).2 0 2 := by
  have h1 : (run endToEnd 48000 impulse silence 3).2 0 2 =
      -1063987147465989488640000000000000000 / 21535854423498203329871328704853952573 := by
    rw [(run_eq_spec_on_input0 endToEnd 48000 impulse silence 0 2).2]
    norm_num [specOut, specStep, specState, blockCoeffs, coeffs, endToEnd, impulse, channelOf]
  have h2 : (run { endToEnd with fOutputGain := 2 * endToEnd.fOutputGain } 48000 impulse
      silence 3).2 0 2 =
      -7770646410493121003520000000000000000 / 21535854423498203329871328704853952573 := by
    rw [(run_eq_spec_on_input0 _ 48000 impulse silence 0 2).2]
    norm_num [specOut, specStep, specState, blockCoeffs, coeffs, endToEnd, impulse, channelOf]
  refine ⟨h1, h2, ?_⟩
  rw [h1, h2]
  norm_num

/-- In exact arithmetic (a field, where moreover `0 / 0 = 0`): starting from the zero
state, for fixed cutoff, drive, sample rate and input block and with resonance 0 (so that
`fb = 0` and `g = outputGain`), running with output gain `k * G` produces `k` times every
output sample produced when running with output gain `G`.  In binary32 this fails by
rounding (`noResonance32`). -/
theorem output_gain_linear_exact (p : MoogFilter α) (sampleRate k : α)
    (inputs outputs : Buffers α) (n : Nat) (hres : p.fResonance = 0)
    (hd : ∀ ch j, p.fDelay ch j = 0) (hs : ∀ ch j, p.fState ch j = 0) :
    ∀ ch i, i < n →
      (run { p with fOutputGain := k * p.fOutputGain } sampleRate inputs outputs n).2 ch i =
        k * (run p sampleRate inputs outputs n).2 ch i := by
  intro ch i hi
  have hfb : (blockCoeffs p sampleRate).fb = 0 := by
    simp [blockCoeffs, coeffs, hres]
  have hfb2 : (blockCoeffs { p with fOutputGain := k * p.fOutputGain } sampleRate).fb = 0 := by
    simp [blockCoeffs, coeffs, hres]
  have hg : (blockCoeffs { p with fOutputGain := k * p.fOutputGain } sampleRate).g =
      k * (blockCoeffs p sampleRate).g := by
    simp [blockCoeffs, coeffs, hres]
  obtain ⟨sd, ss⟩ := specState_gain_scale (blockCoeffs p sampleRate)
    (blockCoeffs { p with fOutputGain := k * p.fOutputGain } sampleRate) k p.fDrive
    (inputs 0) (channelOf p ch) hfb hfb2 hg rfl rfl rfl rfl rfl (hd ch) (hs ch) i
  rw [run_outputs, run_outputs, if_pos hi, if_pos hi]
  have e : channelOf { p with fOutputGain := k * p.fOutputGain } ch = channelOf p ch := rfl
  rw [e]
  simp only [specOut, (specStep_spec _ _ _).2.2.2.2.2.2, sd 1, sd 2, sd 3, ss 0, ss 1]
  have ea0 : (blockCoeffs { p with fOutputGain := k * p.fOutputGain } sampleRate).a0
      = (blockCoeffs p sampleRate).a0 := rfl
  have ea1 : (blockCoeffs { p with fOutputGain := k * p.fOutputGain } sampleRate).a1
      = (blockCoeffs p sampleRate).a1 := rfl
  have ea2 : (blockCoeffs { p with fOutputGain := k * p.fOutputGain } sampleRate).a2
      = (blockCoeffs p sampleRate).a2 := rfl
  have eb1 : (blockCoeffs { p with fOutputGain := k * p.fOutputGain } sampleRate).b1
      = (blockCoeffs p sampleRate).b1 := rfl
  have eb2 : (blockCoeffs { p with fOutputGain := k * p.fOutputGain } sampleRate).b2
      = (blockCoeffs p sampleRate).b2 := rfl
  rw [ea0, ea1, ea2, eb1, eb2]
  ring

/-- In exact arithmetic (a field): starting from the zero state with fixed parameters and
sample rate, for all input blocks `x` and `y` and all scalars `a` and `b`, every output
sample of `run` on `a*x + b*y` is `a` times that on `x` plus `b` times that on `y`; and
running with drive `d` on `x` gives the same output samples as running with drive 1 on
`d*x`.  In binary32 the first part fails by rounding (`endToEnd32`). -/
theorem run_linear_exact (p : MoogFilter α) (sampleRate a b d : α)
    (x y outputs : Buffers α) (n : Nat)
    (hd : ∀ ch j, p.fDelay ch j = 0) (hs : ∀ ch j, p.fState ch j = 0) :
    (∀ ch k, k < n →
      (run p sampleRate (fun c i => a * x c i + b * y c i) outputs n).2 ch k =
        a * (run p sampleRate x outputs n).2 ch k + b * (run p sampleRate y outputs n).2 ch k) ∧
    (∀ ch k, k < n →
      (run { p with fDrive := d } sampleRate x outputs n).2 ch k =
        (run { p with fDrive := 1 } sampleRate (fun c i => d * x c i) outputs n).2 ch k) := by
  constructor
  · intro ch k hk
    rw [run_outputs, run_outputs, run_outputs, if_pos hk, if_pos hk, if_pos hk]
    exact specOut_linear _ _ a b (x 0) (y 0) _ (hd ch) (hs ch) k
  · intro ch k hk
    rw [run_outputs, run_outputs, if_pos hk, if_pos hk]
    have e1 : blockCoeffs { p with fDrive := d } sampleRate = blockCoeffs p sampleRate := rfl
    have e2 : blockCoeffs { p with fDrive := 1 } sampleRate = blockCoeffs p sampleRate := rfl
    have e3 : channelOf { p with fDrive := d } ch = channelOf p ch := rfl
    have e4 : channelOf { p with fDrive := 1 } ch = channelOf p ch := rfl
    rw [e1, e2, e3, e4]
    simp only [specOut]
    rw [specState_drive (blockCoeffs p sampleRate) d (x 0) (channelOf p ch) k]
    exact specStep_out_indep _ _ _ _

end ExactLemmas

section Binary32Facts

/-- With fuel at least `n`, the halving loop computes the floor of the base-2 logarithm. -/
theorem F32.log2Fuel_eq (fuel n : Nat) (h : n ≤ fuel) : F32.log2Fuel fuel n = Nat.log2 n := by
  induction fuel generalizing n with
  | zero =>
    have h0 : n = 0 := by omega
    subst h0
    rw [Nat.log2]
    rfl
  | succ fuel ih =>
    rw [Nat.log2]
    simp only [F32.log2Fuel]
    by_cases h2 : n < 2
    · rw [if_pos h2, if_neg (by omega)]
    · rw [if_neg h2, if_pos (by omega), ih (n / 2) (by omega)]

/-- The function `ilog2` is the floor of the base-2 logarithm. -/
theorem F32.ilog2_eq (n : Nat) : F32.ilog2 n = Nat.log2 n :=
  F32.log2Fuel_eq n n (Nat.le_refl n)

/-- Binary32 results of the model on familiar inputs: the literals `0.1f` and
`1.61803398875f`, the quotient `1 / 3`, ties going to the even significand at `2^24`,
overflow to infinity at half a unit above the largest finite value, ties among the
subnormals, and the special values of division and multiplication. -/
theorem F32.known_values :
    (0.1 : F32) = F32.fin false 13421773 (-27) ∧
    (1.61803398875 : F32) = F32.fin false 13573053 (-23) ∧
    (1 : F32) / 3 = F32.fin false 11184811 (-25) ∧
    (16777216 : F32) + 1 = 16777216 ∧
    (16777218 : F32) + 1 = 16777220 ∧
    F32.fin false 16777215 104 + F32.fin false 1 103 = F32.inf false ∧
    F32.fin false 16777215 104 + F32.fin false 1 102 = F32.fin false 16777215 104 ∧
    F32.fin false 1 (-149) * 0.5 = 0 ∧
    F32.fin false 3 (-149) * 0.5 = F32.fin false 1 (-148) ∧
    (1 : F32) / 0 = F32.inf false ∧ (0 : F32) / 0 = F32.nan ∧
    F32.inf false * 0 = F32.nan ∧ F32.inf false - F32.inf false = F32.nan ∧
    (1 : F32) / F32.inf true = 0 := by
  decide!

/-- Multiplication in binary32 is commutative. -/
theorem F32.mul_comm (a b : F32) : a * b = b * a := by
  show F32.mul a b = F32.mul b a
  cases a <;> cases b <;> simp [F32.mul, Bool.xor_comm, Nat.mul_comm, Int.add_comm]

/-- The samples of `impulse` are finite in binary32. -/
theorem impulse32_finite (ch : Fin kNumChannels) (i : Nat) :
    FiniteValue ((impulse : Buffers F32) ch i) := by
  unfold impulse
  split_ifs <;> decide!

/-- A fact about the binary32 values `g * (1 * d)` and `g * (0 * d)` holds of
`g * (s * d)` for every sample `s` of `impulse`. -/
theorem impulse32_exact (g d : F32)
    (hg : ExactValue (g * (1 * d)) ∧ ExactValue (g * (0 * d)))
    (ch : Fin kNumChannels) (i : Nat) :
    ExactValue (g * ((impulse : Buffers F32) ch i * d)) := by
  unfold impulse
  split_ifs
  · exact hg.1
  · exact hg.2

/-- The state of channel 0 of `nearUnity32` after 47 silent frames at sample rate 48000 is
`cycleState32`. -/
theorem nearUnity32_reaches_cycle :
    specState (blockCoeffs nearUnity32 48000) nearUnity32.fDrive (fun _ => 0)
      (channelOf nearUnity32 0) 47 = cycleState32 := by
  apply eq_of_slots
  decide!

/-- The state `cycleState32` recurs after two silent frames, and the two output samples
on the way are `-8551287 * 2^-24` and `8551287 * 2^-24`. -/
theorem cycleState32_period :
    specState (blockCoeffs nearUnity32 48000) nearUnity32.fDrive (fun _ => 0) cycleState32 2
      = cycleState32 ∧
    specOut (blockCoeffs nearUnity32 48000) nearUnity32.fDrive (fun _ => 0) cycleState32 0
      = F32.fin true 8551287 (-24) ∧
    specOut (blockCoeffs nearUnity32 48000) nearUnity32.fDrive (fun _ => 0) cycleState32 1
      = F32.fin false 8551287 (-24) := by
  refine ⟨?_, ?_, ?_⟩
  · apply eq_of_slots
    decide!
  · decide!
  · decide!

/-- From frame 47 on, the samples `run` writes to channel 0 for `nearUnity32` at sample
rate 48000 with silent input alternate between two nonzero values. -/
theorem nearUnity32_outputs (outputs : Buffers F32) (k : Nat) :
    (run nearUnity32 48000 silence outputs (47 + 2 * k + 1)).2 0 (47 + 2 * k) =
      F32.fin true 8551287 (-24) ∧
    (run nearUnity32 48000 silence outputs (47 + 2 * k + 1 + 1)).2 0 (47 + 2 * k + 1) =
      F32.fin false 8551287 (-24) := by
  obtain ⟨hper, ho0, ho1⟩ := cycleState32_period
  have hrec := specState_periodic (blockCoeffs nearUnity32 48000) nearUnity32.fDrive 0
    cycleState32 2 hper k
  have hstate : specState (blockCoeffs nearUnity32 48000) nearUnity32.fDrive (fun _ => 0)
      (channelOf nearUnity32 0) (47 + 2 * k) = cycleState32 := by
    rw [specState_add, nearUnity32_reaches_cycle]
    exact hrec
  have hsil : (silence : Buffers F32) 0 = fun _ => 0 := rfl
  constructor
  · rw [(run_eq_spec_on_input0 nearUnity32 48000 silence outputs 0 (47 + 2 * k)).2, hsil]
    simp only [specOut]
    rw [hstate]
    exact ho0
  · rw [(run_eq_spec_on_input0 nearUnity32 48000 silence outputs 0 (47 + 2 * k + 1)).2, hsil]
    have e : specState (blockCoeffs nearUnity32 48000) nearUnity32.fDrive (fun _ => 0)
        (channelOf nearUnity32 0) (47 + 2 * k + 1) =
        specState (blockCoeffs nearUnity32 48000) nearUnity32.fDrive (fun _ => 0)
          cycleState32 1 := by
      rw [specState_add, hstate]
    simp only [specOut] at ho1 ⊢
    rw [e]
    exact ho1

end Binary32Facts

section ArithmeticClaims

open Filter Topology

variable {α : Type} [Zero α] [One α] [OfNat α 2] [OfScientific α]
  [Add α] [Sub α] [Mul α] [Div α]

/-- C5 as stated fails.  In the specification's end-to-end setting (zero state,
`cutoff = 1000`, `resonance = 0.1`, `drive = 1`, `outputGain = 1`, sample rate 48000,
64 frames of an impulse) output sample 0 of channel 0 is 0, whereas `g * (drive * 1.0)`
is `94/113` in exact arithmetic and `3489067 * 2^-22` (about 0.8319) in binary32.  In
binary32 the frame also depends on the coefficients being finite: with
`cutoff = sampleRate = 8000`, `fb` is an infinity, `g * (in * drive)` is 0 and frame 0
pushes NaN into `fDelay[0][3]`; with `cutoff = 16762.3515625` at sample rate 8000, `a0`
is an infinity and output sample 0 is NaN. -/
theorem first_sample_is_not_g :
    ((run endToEnd 48000 impulse silence 64).2 0 0 = 0 ∧
      (blockCoeffs endToEnd 48000).g * (endToEnd.fDrive * impulse 0 0) = 94 / 113 ∧
      (run endToEnd 48000 impulse silence 64).2 0 0 ≠
        (blockCoeffs endToEnd 48000).g * (endToEnd.fDrive * impulse 0 0)) ∧
    ((run endToEnd32 48000 impulse silence 64).2 0 0 = 0 ∧
      (blockCoeffs endToEnd32 48000).g * (endToEnd32.fDrive * impulse 0 0)
        = F32.fin false 3489067 (-22) ∧
      (run endToEnd32 48000 impulse silence 64).2 0 0 ≠
        (blockCoeffs endToEnd32 48000).g * (endToEnd32.fDrive * impulse 0 0)) ∧
    ((blockCoeffs equalRate32 8000).fb = F32.inf false ∧
      (blockCoeffs equalRate32 8000).g * (impulse 0 0 * equalRate32.fDrive) = 0 ∧
      (run equalRate32 8000 impulse silence 1).1.fDelay 0 3 = F32.nan) ∧
    ((blockCoeffs singular32 8000).a0 = F32.inf false ∧
      (run singular32 8000 impulse silence 1).2 0 0 = F32.nan) := by
  have h0 : (run endToEnd32 48000 impulse silence 64).2 0 0 = 0 := by
    rw [run_output_stable endToEnd32 48000 impulse silence 0 0 64 (by decide)]
    decide!
  refine ⟨first_sample_exact, ⟨h0, by decide!, ?_⟩, ⟨by decide!, by decide!, by decide!⟩,
    ⟨by decide!, by decide!⟩⟩
  rw [h0]
  decide!

/-- C5 amended: starting from the zero-initialized state of channel 0, for every
parameter setting, sample rate and input block with at least one frame for which `fb`
and the five two-pole coefficients are finite, the value that frame 0 pushes into
`fDelay[0][3]` is `g * (inputs[0][0] * drive)` with `g = outputGain / (1 + fb)` computed
from the coefficient formulas, and output sample 0 of channel 0 is 0: the output is
computed from the three older delay slots.  The arithmetic is arbitrary (binary32
included); of it the proof uses `0 + 0 = 0`, `0 - 0 = 0`, `x - 0 = x` for the driven
sample, and `c * 0 = 0` for the finite coefficients. -/
theorem first_frame_from_zero (p : MoogFilter α) (sampleRate : α)
    (inputs outputs : Buffers α) (nframes : Nat)
    (hd : ∀ j, p.fDelay 0 j = 0) (hs : ∀ j, p.fState 0 j = 0) (hn : 1 ≤ nframes)
    (hz : ZeroArith α) (hfb : FiniteValue (blockCoeffs p sampleRate).fb)
    (htwo : FiniteTwoPole (blockCoeffs p sampleRate))
    (hsub : inputs 0 0 * p.fDrive - 0 = inputs 0 0 * p.fDrive) :
    (blockCoeffs p sampleRate).g =
      p.fOutputGain / (1 + (p.fResonance + p.fResonance / (1 - p.fCutoffFreq / sampleRate))) ∧
    (run p sampleRate inputs outputs 1).1.fDelay 0 3 =
      (blockCoeffs p sampleRate).g * (inputs 0 0 * p.fDrive) ∧
    (run p sampleRate inputs outputs nframes).2 0 0 = 0 := by
  obtain ⟨-, -, -, h3, -, -, -⟩ :=
    runFrame_spec (p.fCutoffFreq / sampleRate) p.fResonance p.fDrive p.fOutputGain inputs 0
      (run p sampleRate inputs outputs 0) 0
  have efb : (blockCoeffs p sampleRate).fb * 0 = 0 := hfb
  refine ⟨rfl, ?_, ?_⟩
  · rw [run_succ, h3, run_zero]
    have e : (coeffs (p.fCutoffFreq / sampleRate) p.fResonance p.fOutputGain) =
        blockCoeffs p sampleRate := rfl
    simp only [e, hd 3, efb, hsub]
  · rw [run_outputs, if_pos (by omega)]
    exact specStep_out_zero _ _ _ hz htwo hd hs

/-- C5 witness: the end-to-end setting in binary32, 64 frames of an impulse at sample rate
48000: frame 0 pushes `g * (1 * 1) = 3489067 * 2^-22` and output sample 0 is 0. -/
theorem first_frame_from_zero_witness :
    (run endToEnd32 48000 impulse silence 1).1.fDelay 0 3 =
      (blockCoeffs endToEnd32 48000).g * (impulse 0 0 * endToEnd32.fDrive) ∧
    (blockCoeffs endToEnd32 48000).g * (impulse 0 0 * endToEnd32.fDrive)
      = F32.fin false 3489067 (-22) ∧
    (run endToEnd32 48000 impulse silence 64).2 0 0 = 0 :=
  ⟨(first_frame_from_zero endToEnd32 48000 impulse silence 64 (fun _ => rfl) (fun _ => rfl)
      (by decide) (by decide!) (by decide!) (by decide!) (by decide!)).2.1,
    by decide!,
    (first_frame_from_zero endToEnd32 48000 impulse silence 64 (fun _ => rfl) (fun _ => rfl)
      (by decide) (by decide!) (by decide!) (by decide!) (by decide!)).2.2⟩

/-- C6 as stated fails.  Every setting has drive 0 and every parameter inside its declared
range, and the sample rate is positive.  In exact real arithmetic: with `gainLoop` at
sample rate 48000 the feedback loop gain is 7, slot 3 of the delay line is `(-7)^n`, and
the output samples of channel 0 do not tend to 0; with `lowRate` at sample rate 10000
(below the cutoff) every output sample of channel 0 is 1.  In binary32: with
`nearUnity32` (`cutoff = 12000`, `resonance = 1`, `outputGain = 1.428571343421936`) at
sample rate 48000 the loop gain `g * fb` is `1 - 2^-24`, below 1, and yet from frame 47
on the output samples of channel 0 alternate between `-8551287 * 2^-24` and
`8551287 * 2^-24` (about 0.5097) for ever: rounding sustains a limit cycle. -/
theorem drive_zero_not_always_convergent :
    ((gainLoop : MoogFilter ℝ).fDrive = 0 ∧
      (20 : ℝ) ≤ (gainLoop : MoogFilter ℝ).fCutoffFreq ∧
      (gainLoop : MoogFilter ℝ).fCutoffFreq ≤ 20000 ∧
      (0 : ℝ) ≤ (gainLoop : MoogFilter ℝ).fResonance ∧
      (gainLoop : MoogFilter ℝ).fResonance ≤ 1 ∧
      (-60 : ℝ) ≤ (gainLoop : MoogFilter ℝ).fOutputGain ∧
      (gainLoop : MoogFilter ℝ).fOutputGain ≤ 12 ∧
      ¬ Tendsto (fun n => (run (gainLoop : MoogFilter ℝ) 48000 silence silence (n + 1)).2 0 n)
        atTop (𝓝 0)) ∧
    ((lowRate : MoogFilter ℝ).fDrive = 0 ∧
      (20 : ℝ) ≤ (lowRate : MoogFilter ℝ).fCutoffFreq ∧
      (lowRate : MoogFilter ℝ).fCutoffFreq ≤ 20000 ∧
      (0 : ℝ) ≤ (lowRate : MoogFilter ℝ).fResonance ∧
      (lowRate : MoogFilter ℝ).fResonance ≤ 1 ∧
      (-60 : ℝ) ≤ (lowRate : MoogFilter ℝ).fOutputGain ∧
      (lowRate : MoogFilter ℝ).fOutputGain ≤ 12 ∧
      ¬ Tendsto (fun n => (run (lowRate : MoogFilter ℝ) 10000 silence silence (n + 1)).2 0 n)
        atTop (𝓝 0)) ∧
    (nearUnity32.fDrive = 0 ∧ nearUnity32.fCutoffFreq = 12000 ∧
      nearUnity32.fResonance = 1 ∧ nearUnity32.fOutputGain = 1.428571343421936 ∧
      (blockCoeffs nearUnity32 48000).g * (blockCoeffs nearUnity32 48000).fb
        = F32.fin false 16777215 (-24) ∧
      ∀ k, (run nearUnity32 48000 silence silence (47 + 2 * k + 1)).2 0 (47 + 2 * k) =
          F32.fin true 8551287 (-24) ∧
        (run nearUnity32 48000 silence silence (47 + 2 * k + 1 + 1)).2 0 (47 + 2 * k + 1) =
          F32.fin false 8551287 (-24)) :=
  ⟨drive_zero_diverges_exact.1, drive_zero_diverges_exact.2,
    rfl, rfl, rfl, rfl, by decide!, nearUnity32_outputs silence⟩

/-- C6 amended: with drive 0 the all-zero channel state is a steady state that `run` does
not leave.  For every parameter setting and sample rate for which the seven block
coefficients are finite, and every input block of finite samples, if after `m` frames
the four delay slots and the two feedback-state slots of a channel are all 0 (as they are
after construction, with `m = 0`), then every later output sample of that channel is
exactly 0 and the six slots are 0 after any `n >= m` frames.  Convergence to this state
from other states is not claimed.  The arithmetic is arbitrary (binary32 included); of
it the proof uses `0 + 0 = 0`, `0 - 0 = 0` and `c * 0 = 0` for the finite values. -/
theorem drive_zero_steady_state (p : MoogFilter α) (sampleRate : α)
    (inputs outputs : Buffers α) (m n : Nat) (ch : Fin kNumChannels)
    (hdrive : p.fDrive = 0) (hz : ZeroArith α)
    (hc : FiniteCoeffs (blockCoeffs p sampleRate)) (hin : ∀ i, FiniteValue (inputs 0 i))
    (hd : ∀ j, (run p sampleRate inputs outputs m).1.fDelay ch j = 0)
    (hs : ∀ j, (run p sampleRate inputs outputs m).1.fState ch j = 0) :
    (∀ k, m ≤ k → k < n → (run p sampleRate inputs outputs n).2 ch k = 0) ∧
    (m ≤ n → (∀ j, (run p sampleRate inputs outputs n).1.fDelay ch j = 0) ∧
      (∀ j, (run p sampleRate inputs outputs n).1.fState ch j = 0)) := by
  have hm := run_channel p sampleRate inputs outputs ch m
  have hzero : ∀ t, (∀ j, (specState (blockCoeffs p sampleRate) p.fDrive (inputs 0)
        (channelOf p ch) (m + t)).delay j = 0) ∧
      (∀ j, (specState (blockCoeffs p sampleRate) p.fDrive (inputs 0)
        (channelOf p ch) (m + t)).state j = 0) := by
    intro t
    rw [specState_add, ← hm]
    refine specState_zero _ _ _ _ hz hc ?_ hd hs t
    intro i
    rw [hdrive]
    exact hin (m + i)
  constructor
  · intro k hmk hkn
    obtain ⟨t, rfl⟩ := Nat.exists_eq_add_of_le hmk
    rw [run_outputs, if_pos hkn]
    exact specStep_out_zero _ _ _ hz hc.2.2 (hzero t).1 (hzero t).2
  · intro hmn
    obtain ⟨t, rfl⟩ := Nat.exists_eq_add_of_le hmn
    have hch := run_channel p sampleRate inputs outputs ch (m + t)
    constructor
    · intro j
      have e : (run p sampleRate inputs outputs (m + t)).1.fDelay ch j =
          (channelOf (run p sampleRate inputs outputs (m + t)).1 ch).delay j := rfl
      rw [e, hch]
      exact (hzero t).1 j
    · intro j
      have e : (run p sampleRate inputs outputs (m + t)).1.fState ch j =
          (channelOf (run p sampleRate inputs outputs (m + t)).1 ch).state j := rfl
      rw [e, hch]
      exact (hzero t).2 j

/-- C6 witness: the end-to-end setting in binary32 with drive 0, from the zero state
(`m = 0`), eight frames of the constant signal 1 at sample rate 48000, channel 1. -/
theorem drive_zero_steady_state_witness :
    (∀ k, 0 ≤ k → k < 8 →
      (run { endToEnd32 with fDrive := 0 } 48000 stepSignal silence 8).2 1 k = 0) ∧
    (0 ≤ 8 →
      (∀ j, (run { endToEnd32 with fDrive := 0 } 48000 stepSignal silence 8).1.fDelay 1 j = 0) ∧
      (∀ j, (run { endToEnd32 with fDrive := 0 } 48000 stepSignal silence 8).1.fState 1 j = 0)) :=
  drive_zero_steady_state { endToEnd32 with fDrive := 0 } 48000 stepSignal silence 0 8 1 rfl
    (by decide!) (by decide!) (fun i => by unfold stepSignal; decide!)
    (fun _ => rfl) (fun _ => rfl)

/-- C17 as stated fails.  In exact arithmetic, in the end-to-end setting (resonance 0.1,
zero state, impulse input) doubling the output gain from 1 to 2 does not double output
sample 2 of channel 0: the gain sits inside the feedback loop.  In binary32, even with
resonance 0, tripling the gain from 1 to 3 gives output sample 2 of channel 0 as
`617159 * 2^-21`, while 3 times the sample at gain 1 is `2468637 * 2^-23`; and with
resonance 0 and `cutoff = sampleRate = 8000`, `fb = 0 + 0/0` is NaN, not 0. -/
theorem output_gain_not_linear :
    ((run endToEnd 48000 impulse silence 3).2 0 2 =
        -1063987147465989488640000000000000000 / 21535854423498203329871328704853952573 ∧
      (run { endToEnd with fOutputGain := 2 * endToEnd.fOutputGain } 48000 impulse
        silence 3).2 0 2 =
        -7770646410493121003520000000000000000 / 21535854423498203329871328704853952573 ∧
      (run { endToEnd with fOutputGain := 2 * endToEnd.fOutputGain } 48000 impulse
        silence 3).2 0 2 ≠ 2 * (run endToEnd 48000 impulse silence 3).2 0 2) ∧
    (noResonance32.fResonance = 0 ∧
      (run { noResonance32 with fOutputGain := 3 * noResonance32.fOutputGain } 48000 impulse
        silence 3).2 0 2 = F32.fin false 617159 (-21) ∧
      3 * (run noResonance32 48000 impulse silence 3).2 0 2 = F32.fin false 2468637 (-23) ∧
      (run { noResonance32 with fOutputGain := 3 * noResonance32.fOutputGain } 48000 impulse
        silence 3).2 0 2 ≠ 3 * (run noResonance32 48000 impulse silence 3).2 0 2) ∧
    (blockCoeffs { equalRate32 with fResonance := 0 } 8000).fb = F32.nan :=
  ⟨gain_doubling_exact, ⟨rfl, by decide!, by decide!, by decide!⟩, by decide!⟩

/-- C17 amended: OutputGain is applied as a plain multiplier of the driven input when
there is no feedback.  For every parameter setting with `resonance = 0` for which
`fb = 0 + 0 / (1 - cutoff)` is 0 (that is, `1 - cutoff` is neither 0 nor NaN), from every
state whose delay slot 3 is finite and for every input block whose products
`outputGain * (inputs[0][i] * drive)` are finite, `g` is `outputGain` itself, and running
with output gain `G` and drive `d` on `x` gives the same output samples and the same
final delay and state slots as running with output gain 1 and drive 1 on the block
`G * (x * d)`.  Scaling of the output samples by a factor `k` is not claimed.  The
arithmetic is arbitrary (binary32 included); of it the proof uses `1 + 0 = 1`,
`1 / 1 = 1`, `G / 1 = G`, and `0 * v = 0`, `v - 0 = v`, `v * 1 = v`, `1 * v = v` for the
finite values named. -/
theorem output_gain_scales_input (p : MoogFilter α) (sampleRate : α)
    (inputs outputs : Buffers α) (n : Nat) (hres : p.fResonance = 0)
    (hfb : (0 : α) + 0 / (1 - p.fCutoffFreq / sampleRate) = 0)
    (hunit : (1 : α) + 0 = 1 ∧ (1 : α) / 1 = 1 ∧ p.fOutputGain / 1 = p.fOutputGain)
    (hd : ∀ ch, 0 * p.fDelay ch 3 = 0)
    (hx : ∀ i, inputs 0 i * p.fDrive - 0 = inputs 0 i * p.fDrive)
    (hw : ∀ i, ExactValue (p.fOutputGain * (inputs 0 i * p.fDrive))) :
    (blockCoeffs p sampleRate).g = p.fOutputGain ∧
    (∀ ch k, (run p sampleRate inputs outputs n).2 ch k =
      (run { p with fOutputGain := 1, fDrive := 1 } sampleRate
        (fun c i => p.fOutputGain * (inputs c i * p.fDrive)) outputs n).2 ch k) ∧
    (∀ ch j, (run p sampleRate inputs outputs n).1.fDelay ch j =
      (run { p with fOutputGain := 1, fDrive := 1 } sampleRate
        (fun c i => p.fOutputGain * (inputs c i * p.fDrive)) outputs n).1.fDelay ch j) ∧
    (∀ ch j, (run p sampleRate inputs outputs n).1.fState ch j =
      (run { p with fOutputGain := 1, fDrive := 1 } sampleRate
        (fun c i => p.fOutputGain * (inputs c i * p.fDrive)) outputs n).1.fState ch j) := by
  obtain ⟨h10, h11, hG⟩ := hunit
  have efb : (blockCoeffs p sampleRate).fb = 0 := by
    show p.fResonance + p.fResonance / (1 - p.fCutoffFreq / sampleRate) = 0
    rw [hres]
    exact hfb
  have efb1 : (blockCoeffs { p with fOutputGain := 1, fDrive := 1 } sampleRate).fb = 0 := efb
  have eg : (blockCoeffs p sampleRate).g = p.fOutputGain := by
    show p.fOutputGain / (1 + (blockCoeffs p sampleRate).fb) = p.fOutputGain
    rw [efb, h10, hG]
  have eg1 : (blockCoeffs { p with fOutputGain := 1, fDrive := 1 } sampleRate).g = 1 := by
    show (1 : α) / (1 + (blockCoeffs p sampleRate).fb) = 1
    rw [efb, h10, h11]
  have hst : ∀ ch m,
      specState (blockCoeffs { p with fOutputGain := 1, fDrive := 1 } sampleRate) 1
        (fun i => p.fOutputGain * (inputs 0 i * p.fDrive)) (channelOf p ch) m =
      specState (blockCoeffs p sampleRate) p.fDrive (inputs 0) (channelOf p ch) m :=
    fun ch m => (specState_gain_one (blockCoeffs p sampleRate)
      (blockCoeffs { p with fOutputGain := 1, fDrive := 1 } sampleRate) p.fOutputGain p.fDrive
      (inputs 0) (channelOf p ch) efb efb1 eg eg1 rfl rfl rfl rfl rfl (hd ch) hx hw m).1
  have hch : ∀ ch, channelOf (run p sampleRate inputs outputs n).1 ch =
      channelOf (run { p with fOutputGain := 1, fDrive := 1 } sampleRate
        (fun c i => p.fOutputGain * (inputs c i * p.fDrive)) outputs n).1 ch := by
    intro ch
    rw [run_channel, run_channel]
    exact (hst ch n).symm
  refine ⟨eg, ?_, ?_, ?_⟩
  · intro ch k
    rw [run_outputs, run_outputs]
    by_cases hk : k < n
    · rw [if_pos hk, if_pos hk]
      simp only [specOut]
      have e := hst ch k
      have e4 : channelOf { p with fOutputGain := 1, fDrive := 1 } ch = channelOf p ch := rfl
      rw [e4]
      show _ = (specStep _ _ (specState
        (blockCoeffs { p with fOutputGain := 1, fDrive := 1 } sampleRate) 1
        (fun i => p.fOutputGain * (inputs 0 i * p.fDrive)) (channelOf p ch) k)).2
      rw [e, (specStep_spec _ _ _).2.2.2.2.2.2, (specStep_spec _ _ _).2.2.2.2.2.2]
      rfl
    · rw [if_neg hk, if_neg hk]
  · intro ch j
    exact congrFun (congrArg ChannelState.delay (hch ch)) j
  · intro ch j
    exact congrFun (congrArg ChannelState.state (hch ch)) j

/-- C17 witness: the end-to-end setting in binary32 with resonance 0 and output gain 3,
eight frames of an impulse at sample rate 48000: `g = 3`, and the output samples are those
of gain 1 on the block `3 * (impulse * 1)`; sample 2 of channel 0 is `617159 * 2^-21`. -/
theorem output_gain_scales_input_witness :
    (blockCoeffs { noResonance32 with fOutputGain := 3 } 48000).g = 3 ∧
    (∀ ch k, (run { noResonance32 with fOutputGain := 3 } 48000 impulse silence 8).2 ch k =
      (run { noResonance32 with fOutputGain := 1, fDrive := 1 } 48000
        (fun c i => 3 * (impulse c i * 1)) silence 8).2 ch k) ∧
    (run { noResonance32 with fOutputGain := 3 } 48000 impulse silence 8).2 0 2
      = F32.fin false 617159 (-21) :=
  ⟨(output_gain_scales_input { noResonance32 with fOutputGain := 3 } 48000 impulse silence 8
      rfl (by decide!) (by decide!) (fun _ => (by decide! : (0 : F32) * 0 = 0))
      (fun i => by unfold impulse; split_ifs <;> decide!)
      (impulse32_exact 3 1 (by decide!) 0)).1,
    (output_gain_scales_input { noResonance32 with fOutputGain := 3 } 48000 impulse silence 8
      rfl (by decide!) (by decide!) (fun _ => (by decide! : (0 : F32) * 0 = 0))
      (fun i => by unfold impulse; split_ifs <;> decide!)
      (impulse32_exact 3 1 (by decide!) 0)).2.1,
    by decide!⟩

end ArithmeticClaims

section DriveClaims

variable {α : Type} [One α] [OfNat α 2] [OfScientific α] [Add α] [Sub α] [Mul α] [Div α]

/-- C18 as stated fails: in binary32, in the end-to-end setting from the zero state at
sample rate 48000, output sample 2 of channel 0 for the input `3 * impulse + 5 * stepSignal`
is `1835257 * 2^-19`, while 3 times the sample for `impulse` plus 5 times the sample for
`stepSignal` is `7341027 * 2^-21`: the two differ in the last place. -/
theorem run_not_linear_in_binary32 :
    (run endToEnd32 48000 (fun c i => 3 * impulse c i + 5 * stepSignal c i) silence 4).2 0 2
      = F32.fin false 1835257 (-19) ∧
    3 * (run endToEnd32 48000 impulse silence 4).2 0 2
        + 5 * (run endToEnd32 48000 stepSignal silence 4).2 0 2
      = F32.fin false 7341027 (-21) ∧
    (run endToEnd32 48000 (fun c i => 3 * impulse c i + 5 * stepSignal c i) silence 4).2 0 2 ≠
      3 * (run endToEnd32 48000 impulse silence 4).2 0 2
        + 5 * (run endToEnd32 48000 stepSignal silence 4).2 0 2 := by
  refine ⟨?_, ?_, ?_⟩ <;> decide!

/-- C18 amended: the drive is a plain multiplier of the input.  For every initial state,
parameter setting, sample rate and input block `x`, running with drive `d` on `x` gives
the same output samples and the same final delay and state slots as running with drive 1
on `d * x`.  Superposition over `a * x + b * y` is not claimed.  The arithmetic is
arbitrary (binary32 included); of it the proof uses that the products `x[i] * d` commute
and that multiplying `d * x[i]` by 1 changes nothing. -/
theorem drive_scales_input (p : MoogFilter α) (sampleRate d : α) (x outputs : Buffers α)
    (n : Nat) (hcomm : ∀ i, x 0 i * d = d * x 0 i) (hone : ∀ i, d * x 0 i * 1 = d * x 0 i) :
    (∀ ch k, (run { p with fDrive := d } sampleRate x outputs n).2 ch k =
      (run { p with fDrive := 1 } sampleRate (fun c i => d * x c i) outputs n).2 ch k) ∧
    (∀ ch j, (run { p with fDrive := d } sampleRate x outputs n).1.fDelay ch j =
      (run { p with fDrive := 1 } sampleRate (fun c i => d * x c i) outputs n).1.fDelay ch j) ∧
    (∀ ch j, (run { p with fDrive := d } sampleRate x outputs n).1.fState ch j =
      (run { p with fDrive := 1 } sampleRate (fun c i => d * x c i) outputs n).1.fState ch j) := by
  have hst : ∀ ch m, specState (blockCoeffs p sampleRate) d (x 0) (channelOf p ch) m =
      specState (blockCoeffs p sampleRate) 1 (fun i => d * x 0 i) (channelOf p ch) m :=
    fun ch m => specState_drive_one _ d (x 0) _ hcomm hone m
  have hch : ∀ ch, channelOf (run { p with fDrive := d } sampleRate x outputs n).1 ch =
      channelOf (run { p with fDrive := 1 } sampleRate (fun c i => d * x c i) outputs n).1
        ch := by
    intro ch
    rw [run_channel, run_channel]
    exact hst ch n
  refine ⟨?_, ?_, ?_⟩
  · intro ch k
    rw [run_outputs, run_outputs]
    by_cases hk : k < n
    · rw [if_pos hk, if_pos hk]
      simp only [specOut]
      have e := hst ch k
      have e1 : blockCoeffs { p with fDrive := d } sampleRate = blockCoeffs p sampleRate := rfl
      have e2 : blockCoeffs { p with fDrive := 1 } sampleRate = blockCoeffs p sampleRate := rfl
      have e3 : channelOf { p with fDrive := d } ch = channelOf p ch := rfl
      have e4 : channelOf { p with fDrive := 1 } ch = channelOf p ch := rfl
      rw [e1, e2, e3, e4]
      show (specStep _ _ (specState (blockCoeffs p sampleRate) d (x 0) (channelOf p ch) k)).2 = _
      rw [e]
      exact specStep_out_indep _ _ _ _
    · rw [if_neg hk, if_neg hk]
  · intro ch j
    exact congrFun (congrArg ChannelState.delay (hch ch)) j
  · intro ch j
    exact congrFun (congrArg ChannelState.state (hch ch)) j

/-- C18 witness: the end-to-end setting in binary32 at sample rate 48000, drive 0.75 on
eight frames of an impulse against drive 1 on `0.75 * impulse`; output sample 1 of
channel 0 is `1225487 * 2^-21` (about 0.5844). -/
theorem drive_scales_input_witness :
    (∀ ch k, (run { endToEnd32 with fDrive := 0.75 } 48000 impulse silence 8).2 ch k =
      (run { endToEnd32 with fDrive := 1 } 48000 (fun c i => 0.75 * impulse c i) silence 8).2
        ch k) ∧
    (run { endToEnd32 with fDrive := 0.75 } 48000 impulse silence 8).2 0 1
      = F32.fin false 1225487 (-21) := by
  refine ⟨(drive_scales_input endToEnd32 48000 0.75 impulse silence 8
    (fun i => F32.mul_comm _ _) ?_).1, ?_⟩
  · intro i
    unfold impulse
    split_ifs <;> decide!
  · decide!

end DriveClaims

section ConstructionClaims

variable {α : Type} [Zero α] [One α] [OfNat α 2] [OfNat α 1000] [OfScientific α]
  [Add α] [Sub α] [Mul α] [Div α]

/-- C19 as stated fails: the freshly constructed object run in binary32 at the positive
sample rate 1000 (the constructor's cutoff) has `1 - cutoff = 0`, so `fb` is an infinity,
`g` is 0 and the value pushed into the delay line is `0 * (0 - inf * 0)`, a NaN; with a
silent input, output sample 1 of channel 0 is NaN and the feedback state left is NaN. -/
theorem fresh_engine_not_silent :
    (blockCoeffs (construct endToEnd32) 1000).fb = F32.inf false ∧
    (blockCoeffs (construct endToEnd32) 1000).g = 0 ∧
    (run (construct endToEnd32) 1000 silence silence 2).2 0 1 = F32.nan ∧
    (run (construct endToEnd32) 1000 silence silence 2).2 0 1 ≠ 0 ∧
    (run (construct endToEnd32) 1000 silence silence 2).1.fState 0 0 = F32.nan := by
  refine ⟨?_, ?_, ?_, ?_, ?_⟩ <;> decide!

/-- C19 amended: a freshly constructed object is silent at every sample rate at which the
seven block coefficients are finite: whatever the members held before the constructor
ran, for every frame count and every input block of finite samples, every sample `run`
writes to either output channel is 0 and every delay and state slot is still 0
afterwards.  The arithmetic is arbitrary (binary32 included); of it the proof uses
`0 + 0 = 0`, `0 - 0 = 0` and `c * 0 = 0` for the finite values. -/
theorem fresh_engine_silent (u : MoogFilter α) (sampleRate : α) (inputs outputs : Buffers α)
    (n : Nat) (ch : Fin kNumChannels) (hz : ZeroArith α)
    (hc : FiniteCoeffs (blockCoeffs (construct u) sampleRate))
    (hin : ∀ i, FiniteValue (inputs 0 i)) :
    (∀ k, k < n → (run (construct u) sampleRate inputs outputs n).2 ch k = 0) ∧
    (∀ j, (run (construct u) sampleRate inputs outputs n).1.fDelay ch j = 0) ∧
    (∀ j, (run (construct u) sampleRate inputs outputs n).1.fState ch j = 0) := by
  obtain ⟨-, -, hdrive, -, hd, hs⟩ := construct_spec u
  have hin0 : ∀ i, inputs 0 i * (construct u).fDrive = 0 := by
    intro i
    rw [hdrive]
    exact hin i
  have hzero := specState_zero (blockCoeffs (construct u) sampleRate) (construct u).fDrive
    (inputs 0) (channelOf (construct u) ch) hz hc hin0 (hd ch) (hs ch)
  have hch := run_channel (construct u) sampleRate inputs outputs ch n
  refine ⟨?_, ?_, ?_⟩
  · intro k hk
    rw [run_outputs, if_pos hk]
    exact specStep_out_zero _ _ _ hz hc.2.2 (hzero k).1 (hzero k).2
  · intro j
    have e : (run (construct u) sampleRate inputs outputs n).1.fDelay ch j =
        (channelOf (run (construct u) sampleRate inputs outputs n).1 ch).delay j := rfl
    rw [e, hch]
    exact (hzero n).1 j
  · intro j
    have e : (run (construct u) sampleRate inputs outputs n).1.fState ch j =
        (channelOf (run (construct u) sampleRate inputs outputs n).1 ch).state j := rfl
    rw [e, hch]
    exact (hzero n).2 j

/-- C19 witness: the freshly constructed object in binary32 at sample rate 48000, eight
frames of an impulse, channel 1. -/
theorem fresh_engine_silent_witness :
    (∀ k, k < 8 → (run (construct endToEnd32) 48000 impulse silence 8).2 1 k = 0) ∧
    (∀ j, (run (construct endToEnd32) 48000 impulse silence 8).1.fDelay 1 j = 0) ∧
    (∀ j, (run (construct endToEnd32) 48000 impulse silence 8).1.fState 1 j = 0) :=
  fresh_engine_silent endToEnd32 48000 impulse silence 8 1 (by decide!) (by decide!)
    (impulse32_finite 0)

end ConstructionClaims

section LatencyClaims

variable {α : Type} [Zero α] [One α] [OfNat α 2] [OfScientific α]
  [Add α] [Sub α] [Mul α] [Div α]

/-- C20 as stated fails in its last part: in binary32, with the in-range cutoff
16762.3515625 at sample rate 8000, the rounded sum `1 + cutoff * (1.61803398875 - cutoff)`
is 0, `a0` is an infinity, and from the zero state output sample 0 of either channel is
NaN, not 0. -/
theorem output_sample0_not_zero :
    (blockCoeffs singular32 8000).a0 = F32.inf false ∧
    (∀ ch j, singular32.fDelay ch j = 0) ∧ (∀ ch j, singular32.fState ch j = 0) ∧
    (run singular32 8000 impulse silence 1).2 0 0 = F32.nan ∧
    (run singular32 8000 impulse silence 1).2 1 0 = F32.nan ∧
    (run singular32 8000 impulse silence 1).2 0 0 ≠ 0 := by
  refine ⟨?_, fun _ _ => rfl, fun _ _ => rfl, ?_, ?_, ?_⟩ <;> decide!

/-- C20 amended: output sample `i` of `run` does not depend on input sample `i` or any
later one: for every object, sample rate and frame count, if two input blocks agree on
all frames before index `i`, the outputs agree on all frames up to and including `i`; and
from the zero state output sample 0 is 0 for every input, provided the five two-pole
coefficients are finite.  The arithmetic is arbitrary (binary32 included); the first part
uses no property of it, the second `0 + 0 = 0`, `0 - 0 = 0` and `c * 0 = 0` for the
finite coefficients. -/
theorem run_one_sample_latency (p : MoogFilter α) (sampleRate : α)
    (x x2 outputs : Buffers α) (n i : Nat) (h : ∀ ch k, k < i → x ch k = x2 ch k) :
    (∀ ch k, k ≤ i →
      (run p sampleRate x outputs n).2 ch k = (run p sampleRate x2 outputs n).2 ch k) ∧
    (ZeroArith α → FiniteTwoPole (blockCoeffs p sampleRate) →
      (∀ ch j, p.fDelay ch j = 0) → (∀ ch j, p.fState ch j = 0) →
      ∀ ch, (run p sampleRate x outputs (n + 1)).2 ch 0 = 0) := by
  constructor
  · intro ch k hk
    rw [run_outputs, run_outputs]
    by_cases hkn : k < n
    · rw [if_pos hkn, if_pos hkn]
      exact specOut_congr _ _ _ _ _ k (fun j hj => h 0 j (by omega))
    · rw [if_neg hkn, if_neg hkn]
  · intro hz htwo hd hs ch
    rw [run_outputs, if_pos (Nat.succ_pos n)]
    exact specStep_out_zero _ _ _ hz htwo (hd ch) (hs ch)

/-- C20 witness: `impulse` and `stepSignal` agree on frame 0 and differ from frame 1 on;
in the end-to-end setting in binary32 at sample rate 48000 their outputs agree on frames
0 and 1, and output sample 0 is 0 on both channels. -/
theorem run_one_sample_latency_witness :
    (∀ ch k, k < 1 → (impulse : Buffers F32) ch k = stepSignal ch k) ∧
    (impulse : Buffers F32) 0 1 ≠ stepSignal 0 1 ∧
    (∀ ch k, k ≤ 1 →
      (run endToEnd32 48000 impulse silence 8).2 ch k =
        (run endToEnd32 48000 stepSignal silence 8).2 ch k) ∧
    (∀ ch, (run endToEnd32 48000 impulse silence 8).2 ch 0 = 0) := by
  have h : ∀ (ch : Fin kNumChannels) (k : Nat), k < 1 →
      (impulse : Buffers F32) ch k = stepSignal ch k := by
    intro ch k hk
    have hk0 : k = 0 := by omega
    subst hk0
    simp [impulse, stepSignal]
  exact ⟨h, by decide!,
    (run_one_sample_latency endToEnd32 48000 impulse stepSignal silence 8 1 h).1,
    (run_one_sample_latency endToEnd32 48000 impulse stepSignal silence 7 1 h).2
      (by decide!) (by decide!) (fun _ _ => rfl) (fun _ _ => rfl)⟩

end LatencyClaims

end MoogFilter
